import Mathlib

/-!
# Verification of `pathtoregexp.go`

A shallow embedding of the Go package `pathtoregexp` (tokenizer `Parse` and
expression synthesizer `PathToRegexp`) together with theorems about it.

Go strings are byte sequences, so a string is modelled as a list of byte values
(`GoString`).  Operations that can fail at run time in Go (indexing and slicing
out of range) return `Option`, `none` standing for the run-time fault.
-/

namespace Pathtoregexp

/-! ## Strings, runes and the standard-library routines the package calls -/

/-- A Go `string`: its sequence of bytes. -/
abbrev GoString := List Nat

/-- The value `utf8.RuneError`. -/
def RuneError : Nat := 0xFFFD

/-- Go conversion `string(r)` of an integer to a string (`utf8.EncodeRune`):
the UTF-8 encoding of the code point, `RuneError` for an invalid one. -/
def encodeRune (r : Nat) : GoString :=
  if r < 0x80 then [r]
  else if r < 0x800 then [0xC0 + r / 64, 0x80 + r % 64]
  else if 0xD800 ≤ r ∧ r ≤ 0xDFFF then [0xEF, 0xBF, 0xBD]
  else if r < 0x10000 then [0xE0 + r / 4096, 0x80 + (r / 64) % 64, 0x80 + r % 64]
  else if r < 0x110000 then
    [0xF0 + r / 262144, 0x80 + (r / 4096) % 64, 0x80 + (r / 64) % 64, 0x80 + r % 64]
  else [0xEF, 0xBF, 0xBD]

/-- A Go string literal, written as Lean text: the UTF-8 bytes of the text. -/
def bytes (s : String) : GoString :=
  s.toList.flatMap fun c => encodeRune c.toNat

/-- Continuation-byte test `locb ≤ b ≤ hicb` of `unicode/utf8`. -/
def isCont (b : Nat) : Bool := 0x80 ≤ b && b ≤ 0xBF

/-- The function `utf8.DecodeRuneInString`: the first rune of the string and its width
in bytes; an invalid or short encoding gives `(RuneError, 1)`, the empty string
`(RuneError, 0)`. -/
def decodeRune : GoString → Nat × Nat
  | [] => (RuneError, 0)
  | s0 :: rest =>
    if s0 < 0x80 then (s0, 1)
    else if 0xC2 ≤ s0 ∧ s0 ≤ 0xDF then
      match rest with
      | s1 :: _ => if isCont s1 then ((s0 % 32) * 64 + s1 % 64, 2) else (RuneError, 1)
      | _ => (RuneError, 1)
    else if 0xE0 ≤ s0 ∧ s0 ≤ 0xEF then
      match rest with
      | s1 :: s2 :: _ =>
        let lo := if s0 = 0xE0 then 0xA0 else 0x80
        let hi := if s0 = 0xED then 0x9F else 0xBF
        if lo ≤ s1 ∧ s1 ≤ hi ∧ isCont s2 then
          ((s0 % 16) * 4096 + (s1 % 64) * 64 + s2 % 64, 3)
        else (RuneError, 1)
      | _ => (RuneError, 1)
    else if 0xF0 ≤ s0 ∧ s0 ≤ 0xF4 then
      match rest with
      | s1 :: s2 :: s3 :: _ =>
        let lo := if s0 = 0xF0 then 0x90 else 0x80
        let hi := if s0 = 0xF4 then 0x8F else 0xBF
        if lo ≤ s1 ∧ s1 ≤ hi ∧ isCont s2 ∧ isCont s3 then
          ((s0 % 8) * 262144 + (s1 % 64) * 4096 + (s2 % 64) * 64 + s3 % 64, 4)
        else (RuneError, 1)
      | _ => (RuneError, 1)
    else (RuneError, 1)

/-- The function `strings.IndexByte`: index of the first occurrence of the byte, or -1. -/
def indexByte : GoString → Nat → Int
  | [], _ => -1
  | b :: rest, c =>
    if b = c then 0
    else
      let i := indexByte rest c
      if i < 0 then -1 else i + 1

/-- The function `strings.Index`: index of the first occurrence of `sub`, or -1. -/
def index : GoString → GoString → Int
  | [], sub => if sub = [] then 0 else -1
  | b :: rest, sub =>
    if sub.isPrefixOf (b :: rest) then 0
    else
      let i := index rest sub
      if i < 0 then -1 else i + 1

/-- Index of the first position at which ranging over the string yields `RuneError`
(the `r == utf8.RuneError` case of `strings.IndexRune`), or -1.  The first argument
bounds the number of runes visited. -/
def indexRuneError : Nat → GoString → Int
  | 0, _ => -1
  | _ + 1, [] => -1
  | fuel + 1, b :: rest =>
    let d := decodeRune (b :: rest)
    if d.1 = RuneError then 0
    else
      let i := indexRuneError fuel ((b :: rest).drop d.2)
      if i < 0 then -1 else i + d.2

/-- The function `strings.IndexRune`. -/
def IndexRune (s : GoString) (r : Nat) : Int :=
  if r < 0x80 then indexByte s r
  else if r = RuneError then indexRuneError s.length s
  else if (0xD800 ≤ r ∧ r ≤ 0xDFFF) ∨ 0x10FFFF < r then -1
  else index s (encodeRune r)

/-- The function `strings.Join`. -/
def join : List GoString → GoString → GoString
  | [], _ => []
  | [a], _ => a
  | a :: b :: rest, sep => a ++ sep ++ join (b :: rest) sep

/-- The function `strconv.Itoa` on a non-negative integer: its decimal digits. -/
def itoa (n : Nat) : GoString :=
  (Nat.toDigits 10 n).map Char.toNat

/-- Go slice expression `s[i:j]`; `none` when the bounds are out of range. -/
def slice (s : GoString) (i j : Nat) : Option GoString :=
  if i ≤ j ∧ j ≤ s.length then some ((s.take j).drop i) else none

/-- Go slice expression `s[i:]`; `none` when `i` is out of range. -/
def sliceFrom (s : GoString) (i : Nat) : Option GoString :=
  if i ≤ s.length then some (s.drop i) else none

/-- Go index expression `s[i]`; `none` when `i` is out of range. -/
def byteAt (s : GoString) (i : Nat) : Option Nat :=
  s.get? i

/-! ## The two escaping functions -/

/-- Bytes matched by `escapeReg`, the class `[.+*?=^!:${}()[\]|\\]`. -/
def isEscapeChar (b : Nat) : Bool :=
  b ∈ [0x2E, 0x2B, 0x2A, 0x3F, 0x3D, 0x5E, 0x21, 0x3A, 0x24, 0x7B, 0x7D, 0x28, 0x29, 0x5B,
    0x5D, 0x7C, 0x5C]

/-- Bytes matched by `groupReg`, the class `[=!:$/()]`. -/
def isGroupChar (b : Nat) : Bool :=
  b ∈ [0x3D, 0x21, 0x3A, 0x24, 0x2F, 0x28, 0x29]

/-- The function `escapeString`: `escapeReg.ReplaceAllString(str, "\\$1")` puts a backslash
before every byte of the class and copies every other byte. -/
def escapeString (s : GoString) : GoString :=
  s.flatMap fun b => if isEscapeChar b then [0x5C, b] else [b]

/-- The function `escapeGroup`: `groupReg.ReplaceAllString(group, "\\$1")`. -/
def escapeGroup (group : GoString) : GoString :=
  group.flatMap fun b => if isGroupChar b then [0x5C, b] else [b]

/-! ## `PATH_REGEXP` and `FindAllStringSubmatch` -/

/-- One element of `PATH_REGEXP.FindAllStringSubmatch` paired with the start offset that
`FindAllStringSubmatchIndex` reports for it: `m` is `res[0]`, and `escaped`, `name`,
`capture`, `group`, `modifier` are `res[1]` to `res[5]` (empty when the group took no
part in the match). -/
structure Submatch where
  offset : Nat
  m : GoString
  escaped : GoString
  name : GoString
  capture : GoString
  group : GoString
  modifier : GoString
deriving DecidableEq, Repr

/-- The class `\w` of Go regular expressions: `[0-9A-Za-z_]`. -/
def isWord (b : Nat) : Bool :=
  (0x30 ≤ b && b ≤ 0x39) || (0x41 ≤ b && b ≤ 0x5A) || b = 0x5F || (0x61 ≤ b && b ≤ 0x7A)

/-- Number of bytes taken by the longest run of `(?:\\.|[^\\()])` items at the head of the
string (`.` is any rune but a newline; the negated class is any rune but a backslash or
a parenthesis).  The first argument bounds the number of items. -/
def groupLen : Nat → GoString → Nat
  | 0, _ => 0
  | _ + 1, [] => 0
  | fuel + 1, b :: rest =>
    if b = 0x5C then
      match rest with
      | [] => 0
      | _ :: _ =>
        let d := decodeRune rest
        if d.1 = 0x0A then 0 else 1 + d.2 + groupLen fuel (rest.drop d.2)
    else if b = 0x28 ∨ b = 0x29 then 0
    else
      let d := decodeRune (b :: rest)
      d.2 + groupLen fuel ((b :: rest).drop d.2)

/-- The sub-expression `\(((?:\\.|[^\\()])+)\)` at the head of the string: the captured
text and the input left after the closing parenthesis. -/
def captureAt : GoString → Option (GoString × GoString)
  | [] => none
  | b :: rest =>
    if b = 0x28 then
      let n := groupLen rest.length rest
      if n = 0 then none
      else
        match rest.drop n with
        | c :: after => if c = 0x29 then some (rest.take n, after) else none
        | [] => none
    else none

/-- The sub-expression `([+*?])?` at the head of the string. -/
def modifierAt : GoString → GoString
  | [] => []
  | b :: _ => if b = 0x2B ∨ b = 0x2A ∨ b = 0x3F then [b] else []

/-- A match of `PATH_REGEXP` that starts at the head of the string, with the preferences of
Go's leftmost-first matching: the escape alternative `(\\.)` first, then
`(?:\:(\w+)(?:\(((?:\\.|[^\\()])+)\))?|\(((?:\\.|[^\\()])+)\))([+*?])?` with greedy
repetitions and options.  The argument `offset` is the start offset to record. -/
def matchHere (offset : Nat) : GoString → Option Submatch
  | [] => none
  | b :: rest =>
    if b = 0x5C then
      match rest with
      | [] => none
      | _ :: _ =>
        let d := decodeRune rest
        if d.1 = 0x0A then none
        else
          let e := b :: rest.take d.2
          some ⟨offset, e, e, [], [], [], []⟩
    else if b = 0x3A then
      let name := rest.takeWhile isWord
      if name = [] then none
      else
        let r1 := rest.drop name.length
        match captureAt r1 with
        | some (capture, r2) =>
          let modifier := modifierAt r2
          some ⟨offset, b :: name ++ 0x28 :: capture ++ 0x29 :: modifier, [], name, capture, [],
            modifier⟩
        | none =>
          let modifier := modifierAt r1
          some ⟨offset, b :: name ++ modifier, [], name, [], [], modifier⟩
    else if b = 0x28 then
      match captureAt (b :: rest) with
      | some (group, r2) =>
        let modifier := modifierAt r2
        some ⟨offset, b :: group ++ 0x29 :: modifier, [], [], [], group, modifier⟩
      | none => none
    else none

/-- The successive non-overlapping leftmost matches of `PATH_REGEXP` in the string that
starts at byte `offset` of the input; a failed attempt moves on by one rune.  The first
argument bounds the number of attempts. -/
def findAllFrom : Nat → Nat → GoString → List Submatch
  | 0, _, _ => []
  | _ + 1, _, [] => []
  | fuel + 1, offset, b :: rest =>
    match matchHere offset (b :: rest) with
    | some res =>
      res :: findAllFrom fuel (offset + res.m.length) ((b :: rest).drop res.m.length)
    | none =>
      let w := (decodeRune (b :: rest)).2
      findAllFrom fuel (offset + w) ((b :: rest).drop w)

/-- The results of `PATH_REGEXP.FindAllStringSubmatch(str, -1)` and of
`PATH_REGEXP.FindAllStringSubmatchIndex(str, -1)`, element by element. -/
def findAll (s : GoString) : List Submatch :=
  findAllFrom s.length 0 s

/-! ## Tokens and `Parse` -/

/-- The struct `Token`.  A literal token keeps its text in `Name` and has `String` set;
the other fields then hold Go's zero values. -/
structure Token where
  Name : GoString
  Prefix : GoString := []
  Delimiter : GoString := []
  Optional : Bool := false
  Repeat : Bool := false
  Partial : Bool := false
  Pattern : GoString := []
  String : Bool
deriving DecidableEq, Repr

/-- The struct `ParseOptions`. -/
structure ParseOptions where
  Delimiter : GoString
  Delimiters : GoString
deriving DecidableEq, Repr

/-- The function `NewParseOptions` (and the value `defaultParseOptions`). -/
def NewParseOptions : ParseOptions :=
  { Delimiter := bytes "/", Delimiters := bytes "./" }

/-- The variables that the loop of `Parse` carries from one match to the next. -/
structure ParseState where
  tokens : List Token
  key : Nat
  index : Nat
  path : GoString
  pathEscaped : Bool
deriving DecidableEq, Repr

/-- Lines 97 to 103 of `Parse`: the values of `prev` and `path` after the test for a
delimiter at the end of the buffered literal. -/
def takePrev (options : ParseOptions) (pathEscaped : Bool) (path : GoString) :
    Option (GoString × GoString) :=
  if !pathEscaped ∧ path.length > 0 then
    let k := path.length - 1
    (byteAt path k).bind fun c =>
      if IndexRune options.Delimiters c > -1 then
        (slice path 0 k).map fun p => (encodeRune c, p)
      else some ([], path)
  else some ([], path)

/-- Lines 111 to 144 of `Parse`: the parameter token built from a match, given the values
of `key`, `prev` and `next`. -/
def paramToken (options : ParseOptions) (key : Nat) (prev next : GoString) (res : Submatch) :
    Token :=
  let name := res.name
  let capture := res.capture
  let group := res.group
  let modifier := res.modifier
  let part := prev ≠ [] ∧ next ≠ [] ∧ next ≠ prev
  let repeat_ := modifier = bytes "+" ∨ modifier = bytes "*"
  let optional := modifier = bytes "?" ∨ modifier = bytes "*"
  let delimiter := if prev ≠ [] then prev else options.Delimiter
  let pattern := if capture ≠ [] then capture else group
  let n := if name = [] then itoa (key + 1) else name
  let pattern :=
    if pattern.length > 0 then escapeGroup pattern
    else bytes "[^" ++ escapeString delimiter ++ bytes "]+?"
  { Name := n, Prefix := prev, Delimiter := delimiter, Optional := optional,
    Repeat := repeat_, Partial := part, Pattern := pattern, String := false }

/-- One iteration of the loop of `Parse` (lines 73 to 144) on the match `res`. -/
def parseStep (s : GoString) (options : ParseOptions) (st : ParseState) (res : Submatch) :
    Option ParseState :=
  let m := res.m
  let escaped := res.escaped
  let offset := res.offset
  (slice s st.index offset).bind fun gap =>
    let path := st.path ++ gap
    let index := offset + m.length
    -- Ignore already escaped sequences.
    if escaped ≠ [] then
      (byteAt escaped 1).map fun e1 =>
        { st with index := index, path := path ++ encodeRune e1, pathEscaped := true }
    else
      (if index > s.length then (byteAt s index).map encodeRune else some []).bind fun next =>
        (takePrev options st.pathEscaped path).map fun pp =>
          let prev := pp.1
          let path := pp.2
          -- Push the current path onto the tokens.
          let flushed := path ≠ []
          let tokens :=
            if flushed then st.tokens ++ [{ Name := path, String := true }] else st.tokens
          let pathEscaped := if flushed then false else st.pathEscaped
          { tokens := tokens ++ [paramToken options st.key prev next res]
            key := st.key + 1
            index := index
            path := []
            pathEscaped := pathEscaped }

/-- The loop of `Parse` over the matches, from a given state. -/
def parseLoop (s : GoString) (options : ParseOptions) :
    List Submatch → ParseState → Option ParseState
  | [], st => some st
  | res :: rest, st => (parseStep s options st res).bind (parseLoop s options rest)

/-- The statements of `Parse` after the loop (lines 146 to 152). -/
def parseFinish (s : GoString) (st : ParseState) : Option (List Token) :=
  if st.path.length > 0 ∨ st.index < s.length then
    (sliceFrom s st.index).map fun tail =>
      st.tokens ++ [{ Name := st.path ++ tail, String := true }]
  else some st.tokens

/-- The function `Parse`; a `nil` options pointer is `none`.  The result is `none` when
the Go code would stop with an out-of-range fault. -/
def Parse (s : GoString) (options : Option ParseOptions) : Option (List Token) :=
  let options := options.getD NewParseOptions
  (parseLoop s options (findAll s) ⟨[], 0, 0, [], false⟩).bind (parseFinish s)

/-! ## `PathToRegexp` -/

/-- The struct `Options`.  The embedded `*ParseOptions` is a pointer, and `none` is
the `nil` pointer: `NewOptions` never leaves it `nil`, a caller who writes the struct by
hand can. -/
structure Options where
  ParseOptions : Option ParseOptions
  Strict : Bool
  Start : Bool
  End : Bool
  EndsWith : List GoString
deriving DecidableEq, Repr

/-- The function `NewOptions`. -/
def NewOptions : Options :=
  { ParseOptions := some NewParseOptions, Strict := false, Start := true, End := true,
    EndsWith := [] }

/-- The variables that the token loop of `PathToRegexp` carries. -/
structure RouteState where
  route : GoString
  keys : List Token
  isEndDelimited : Bool
deriving DecidableEq, Repr

/-- One iteration of the token loop of `PathToRegexp` (lines 195 to 213); `n` is
`len(tokens)`, `i` the position of `token`, and `po` the struct behind the embedded
pointer, through which `options.Delimiters` is read. -/
def routeStep (po : ParseOptions) (n i : Nat) (token : Token) (st : RouteState) :
    Option RouteState :=
  if token.String then
    let route := st.route ++ escapeString token.Name
    if (i : Int) = (n : Int) - 1 then
      (byteAt token.Name (token.Name.length - 1)).map fun c =>
        { st with
          route := route
          isEndDelimited := IndexRune po.Delimiters c > -1 }
    else some { st with route := route, isEndDelimited := false }
  else
    let capture :=
      if token.Repeat then
        bytes "(?:" ++ token.Pattern ++ bytes ")(?:" ++ escapeString token.Delimiter ++
          bytes "(?:" ++ token.Pattern ++ bytes "))*"
      else token.Pattern
    let keys := st.keys ++ [token]
    let route :=
      if token.Optional then
        if token.Partial then
          st.route ++ (escapeString token.Prefix ++ bytes "(" ++ capture ++ bytes ")?")
        else
          st.route ++ (bytes "(?:" ++ escapeString token.Prefix ++ bytes "(" ++ capture ++
            bytes "))?")
      else st.route ++ (escapeString token.Prefix ++ bytes "(" ++ capture ++ bytes ")")
    some { st with route := route, keys := keys }

/-- The token loop of `PathToRegexp`, from position `i`. -/
def routeLoop (po : ParseOptions) (n : Nat) :
    Nat → List Token → RouteState → Option RouteState
  | _, [], st => some st
  | i, token :: rest, st =>
    (routeStep po n i token st).bind (routeLoop po n (i + 1) rest)

/-- The variable `endsWith` of `PathToRegexp` (lines 180 to 188). -/
def endsWithOf (options : Options) : GoString :=
  join (options.EndsWith.map escapeString ++ [bytes "$"]) (bytes "|")

/-- The end of the expression (lines 215 to 231), appended to the route of the loop;
`po` is the struct behind the embedded pointer, read for `options.Delimiter` at
line 179. -/
def routeEnd (po : ParseOptions) (options : Options) (isEndDelimited : Bool) : GoString :=
  let delimiter := escapeString po.Delimiter
  let endsWith := endsWithOf options
  if options.End then
    (if !options.Strict then bytes "(?:" ++ delimiter ++ bytes ")?" else []) ++
      (if endsWith = bytes "$" then bytes "$" else bytes "(?=" ++ endsWith ++ bytes ")")
  else
    (if !options.Strict then bytes "(?:" ++ delimiter ++ bytes "(?=" ++ endsWith ++ bytes "))?"
      else []) ++
      (if !isEndDelimited then bytes "(?=" ++ delimiter ++ bytes "|" ++ endsWith ++ bytes ")"
        else [])

/-- The expression string `route` that `PathToRegexp` hands to `regexp.Compile`, with the
list `keys` (lines 177 to 231); `none` when the Go code would stop with a fault.  The
call of `Parse` at line 177 takes the embedded pointer as it is, `nil` included; the
selector `options.Delimiter` at line 179 reads through it and faults when it is `nil`. -/
def routeOf (path : GoString) (options : Options) : Option (GoString × List Token) :=
  (Parse path options.ParseOptions).bind fun tokens =>
    options.ParseOptions.bind fun po =>
      let route := if options.Start then bytes "^" else []
      (routeLoop po tokens.length 0 tokens ⟨route, [], tokens.length = 0⟩).map fun st =>
        (st.route ++ routeEnd po options st.isEndDelimited, st.keys)

/-- The three results of `PathToRegexp`. -/
structure Compiled (R E : Type) where
  reg : Option R
  keys : List Token
  err : Option E

/-- The function `PathToRegexp`; a `nil` options pointer is `none`, and `compile` stands
for `regexp.Compile`. -/
def PathToRegexp {R E : Type} (compile : GoString → Except E R) (path : GoString)
    (options : Option Options) : Option (Compiled R E) :=
  let options := options.getD NewOptions
  (routeOf path options).map fun rk =>
    match compile rk.1 with
    | .error err => { reg := none, keys := rk.2, err := some err }
    | .ok reg => { reg := some reg, keys := rk.2, err := none }

/-! ## Capturing groups of an expression string -/

/-- Where a left-to-right scan of an expression string stands: in ordinary text, just
after a backslash, inside a quotation `\Q...\E`, just after a backslash inside a
quotation, just after the `[` that opens a character class, at the first member of a
class (where `]` is literal), further inside a class, just after a backslash inside a
class, at the colon that opens a class name `[:name:]`, inside such a name, or just after
a colon inside such a name. -/
inductive Scan where
  | text
  | esc
  | quote
  | quoteEsc
  | classOpen
  | classFirst
  | classBody
  | classEsc
  | namedOpen
  | named
  | namedColon
deriving DecidableEq, Repr

/-- Whether the text after a `(` makes the parenthesis a capturing one: it does unless it
opens a `(?` group other than a named capture `(?P<` or `(?<`. -/
def opensCapture : GoString → Bool
  | 0x3F :: 0x50 :: 0x3C :: _ => true
  | 0x3F :: 0x3C :: _ => true
  | 0x3F :: _ => false
  | _ => true

/-- Whether the text holds the `:]` that closes a class name. -/
def closesNamed : GoString → Bool
  | [] => false
  | b :: rest => (b = 0x3A && rest.head? = some 0x5D) || closesNamed rest

/-- Whether the text after a `[` met inside a character class makes it the start of a
class name `[:name:]`: a colon comes next and a `:]` follows it. -/
def opensNamed : GoString → Bool
  | 0x3A :: rest => closesNamed rest
  | _ => false

/-- The number of capturing groups met by the scan from a given state. -/
def numSubexpFrom : Scan → GoString → Nat
  | _, [] => 0
  | .text, b :: rest =>
    if b = 0x5C then numSubexpFrom .esc rest
    else if b = 0x5B then numSubexpFrom .classOpen rest
    else if b = 0x28 then (if opensCapture rest then 1 else 0) + numSubexpFrom .text rest
    else numSubexpFrom .text rest
  | .esc, b :: rest =>
    if b = 0x51 then numSubexpFrom .quote rest else numSubexpFrom .text rest
  | .quote, b :: rest =>
    if b = 0x5C then numSubexpFrom .quoteEsc rest else numSubexpFrom .quote rest
  | .quoteEsc, b :: rest =>
    if b = 0x45 then numSubexpFrom .text rest
    else if b = 0x5C then numSubexpFrom .quoteEsc rest
    else numSubexpFrom .quote rest
  | .classOpen, b :: rest =>
    if b = 0x5E then numSubexpFrom .classFirst rest
    else if b = 0x5C then numSubexpFrom .classEsc rest
    else if b = 0x5B ∧ opensNamed rest then numSubexpFrom .namedOpen rest
    else numSubexpFrom .classBody rest
  | .classFirst, b :: rest =>
    if b = 0x5C then numSubexpFrom .classEsc rest
    else if b = 0x5B ∧ opensNamed rest then numSubexpFrom .namedOpen rest
    else numSubexpFrom .classBody rest
  | .classBody, b :: rest =>
    if b = 0x5C then numSubexpFrom .classEsc rest
    else if b = 0x5D then numSubexpFrom .text rest
    else if b = 0x5B ∧ opensNamed rest then numSubexpFrom .namedOpen rest
    else numSubexpFrom .classBody rest
  | .classEsc, _ :: rest => numSubexpFrom .classBody rest
  | .namedOpen, _ :: rest => numSubexpFrom .named rest
  | .named, b :: rest =>
    if b = 0x3A then numSubexpFrom .namedColon rest else numSubexpFrom .named rest
  | .namedColon, b :: rest =>
    if b = 0x5D then numSubexpFrom .classBody rest
    else if b = 0x3A then numSubexpFrom .namedColon rest
    else numSubexpFrom .named rest

/-- The number of capturing groups that Go's `regexp/syntax` sees in an expression string
that it accepts (`Regexp.NumSubexp` once compiled): the opening parentheses that are
neither escaped by a backslash, nor inside a quotation `\Q...\E`, nor inside a bracketed
character class (whose members may be escapes and class names `[:name:]`), and that do
not open a `(?` group other than a named capture.  Inside a class the scan goes byte by
byte and does not tell the bounds of a range apart: a `[:` that is the upper bound of a
range, as in `[+-[:a:]`, is read as the start of a class name when a `:]` follows. -/
def numSubexp (e : GoString) : Nat :=
  numSubexpFrom .text e

/-! ## Predicates used in the statements -/

/-- Whether the matches lie one after another inside a string of `n` bytes, the first
not before byte `lo`, every escape match having at least two bytes. -/
def wellPlaced (n : Nat) : Nat → List Submatch → Bool
  | _, [] => true
  | lo, r :: rs =>
    decide (lo ≤ r.offset) && decide (r.offset + r.m.length ≤ n) &&
      (r.escaped = [] || decide (2 ≤ r.escaped.length)) &&
      wellPlaced n (r.offset + r.m.length) rs

/-- Whether every literal token of the list has a non-empty text. -/
def literalsNonEmpty (ts : List Token) : Bool :=
  ts.all fun t => !t.String || decide (t.Name ≠ [])

/-- Whether a byte is none of the three bytes at which a match of `PATH_REGEXP` can
start: the backslash, the colon and the opening parenthesis. -/
def isPlain (b : Nat) : Bool :=
  b ≠ 0x5C && b ≠ 0x3A && b ≠ 0x28

/-- The literal text that `Parse` has buffered when it reaches the match `res` in the
state `st`: the variable `path` after line 77, the earlier `path` (escaped characters
included, without their backslash) followed by `str[index:offset]`. -/
def pendingLiteral (s : GoString) (st : ParseState) (res : Submatch) : GoString :=
  st.path ++ (s.take res.offset).drop st.index

/-- The text reconstructed from a token list: the concatenation of the tokens' texts. -/
def literalText (ts : List Token) : GoString :=
  ts.flatMap fun t => t.Name

/-- Whether a string is accepted as an inline pattern by the grammar: it is a non-empty
sequence of items of `(?:\\.|[^\\()])`, that is of backslash-escape pairs and of
characters other than the backslash and the parentheses, so that the longest run of
items at its head is the whole string. -/
def isInline (p : GoString) : Bool :=
  p ≠ [] && groupLen p.length p = p.length

/-- The capture `C` of a parameter token in the words of the specification: the token's
`Pattern`, or for a repeated token `(?:PATTERN)(?:DELIMITER(?:PATTERN))*`. -/
def captureOf (t : Token) : GoString :=
  if t.Repeat then
    bytes "(?:" ++ t.Pattern ++ bytes ")(?:" ++ escapeString t.Delimiter ++ bytes "(?:" ++
      t.Pattern ++ bytes "))*"
  else t.Pattern

/-- What a token contributes to the expression in the words of the specification: the
escaped text of a literal token; for a parameter token that is not optional the escaped
prefix and the capture between parentheses; for an optional one (not partial) the same
inside `(?:` and `)?`. -/
def fragmentOf (t : Token) : GoString :=
  if t.String then escapeString t.Name
  else if t.Optional then
    bytes "(?:" ++ escapeString t.Prefix ++ bytes "(" ++ captureOf t ++ bytes "))?"
  else escapeString t.Prefix ++ bytes "(" ++ captureOf t ++ bytes ")"

/-- Whether a token list ends in a literal delimiter-set character: its last token is a
literal whose text ends in a byte that, read as a character, is found in the delimiter
set (the test of line 197 on the last token). -/
def endsInLiteralDelimiter (delimiters : GoString) (tokens : List Token) : Bool :=
  match tokens.getLast? with
  | some t =>
    t.String &&
      (match t.Name.getLast? with
      | some c => decide (IndexRune delimiters c > -1)
      | none => false)
  | none => false

/-! # Theorems -/

/-! ### Runes -/

/-- The shapes of a decoded rune: one byte, or a lead byte followed by one, two or three
bytes that are all at least `0x80`. -/
theorem decodeRune_cases (b : Nat) (rest : GoString) :
    (decodeRune (b :: rest)).2 = 1 ∨
    ((decodeRune (b :: rest)).2 = 2 ∧ 0x80 ≤ b ∧ ∃ s1 t, rest = s1 :: t ∧ 0x80 ≤ s1) ∨
    ((decodeRune (b :: rest)).2 = 3 ∧ 0x80 ≤ b ∧
      ∃ s1 s2 t, rest = s1 :: s2 :: t ∧ 0x80 ≤ s1 ∧ 0x80 ≤ s2) ∨
    ((decodeRune (b :: rest)).2 = 4 ∧ 0x80 ≤ b ∧
      ∃ s1 s2 s3 t, rest = s1 :: s2 :: s3 :: t ∧ 0x80 ≤ s1 ∧ 0x80 ≤ s2 ∧ 0x80 ≤ s3) := by
  simp only [decodeRune]
  by_cases h1 : b < 0x80
  · simp [h1]
  by_cases h2 : 0xC2 ≤ b ∧ b ≤ 0xDF
  · rw [if_neg h1, if_pos h2]
    cases rest with
    | nil => simp
    | cons s1 t =>
      by_cases hc : isCont s1 = true
      · right; left
        simp only [hc, if_true, true_and]
        simp only [isCont, Bool.and_eq_true, decide_eq_true_eq] at hc
        exact ⟨by omega, s1, t, rfl, hc.1⟩
      · simp [hc]
  by_cases h3 : 0xE0 ≤ b ∧ b ≤ 0xEF
  · rw [if_neg h1, if_neg h2, if_pos h3]
    match rest with
    | [] => simp
    | [_] => simp
    | s1 :: s2 :: t =>
      simp only
      split_ifs <;> simp_all [isCont] <;> first | omega | exact ⟨_, _, ⟨rfl, rfl⟩, by omega, by omega⟩
  by_cases h4 : 0xF0 ≤ b ∧ b ≤ 0xF4
  · rw [if_neg h1, if_neg h2, if_neg h3, if_pos h4]
    match rest with
    | [] => simp
    | [_] => simp
    | [_, _] => simp
    | s1 :: s2 :: s3 :: t =>
      simp only
      split_ifs <;> simp_all [isCont] <;> first | omega | exact ⟨_, _, _, ⟨rfl, rfl, rfl⟩, by omega, by omega, by omega⟩
  · simp [h1, h2, h3, h4]

theorem decodeRune_width_pos (b : Nat) (rest : GoString) : 1 ≤ (decodeRune (b :: rest)).2 := by
  rcases decodeRune_cases b rest with h | h | h | h <;> omega

theorem decodeRune_width_le (b : Nat) (rest : GoString) :
    (decodeRune (b :: rest)).2 ≤ rest.length + 1 := by
  rcases decodeRune_cases b rest with h | ⟨h, _, s1, t, rfl, _⟩ | ⟨h, _, s1, s2, t, rfl, _⟩ |
    ⟨h, _, s1, s2, s3, t, rfl, _⟩ <;> simp [h]

theorem decodeRune_ascii (b : Nat) (rest : GoString) (h : b < 0x80) :
    decodeRune (b :: rest) = (b, 1) := by
  simp [decodeRune, h]

/-- A rune never extends over an ASCII byte: the bytes that the first rune of a string
takes are all different from a given ASCII byte that the first byte differs from. -/
theorem decodeRune_take_ne (b : Nat) (rest : GoString) (c : Nat) (hc : c < 0x80) (hb : b ≠ c) :
    c ∉ (b :: rest).take (decodeRune (b :: rest)).2 := by
  rcases decodeRune_cases b rest with h | ⟨h, _, s1, t, rfl, _⟩ | ⟨h, _, s1, s2, t, rfl, _⟩ |
    ⟨h, _, s1, s2, s3, t, rfl, _⟩ <;> rw [h] <;> simp <;> omega

/-! ### Matches of `PATH_REGEXP` -/

theorem groupLen_le (fuel : Nat) (s : GoString) : groupLen fuel s ≤ s.length := by
  induction fuel generalizing s with
  | zero => simp [groupLen]
  | succ n ih =>
    cases s with
    | nil => simp [groupLen]
    | cons b rest =>
      by_cases h1 : b = 0x5C
      · cases rest with
        | nil => simp [groupLen, h1]
        | cons c r =>
          by_cases h2 : (decodeRune (c :: r)).1 = 0x0A
          · simp [groupLen, h1, h2]
          · have h := ih ((c :: r).drop (decodeRune (c :: r)).2)
            have hw := decodeRune_width_le c r
            simp only [groupLen, if_pos h1, if_neg h2]
            simp only [List.length_drop, List.length_cons] at h ⊢
            omega
      · by_cases h2 : b = 0x28 ∨ b = 0x29
        · simp [groupLen, h1, h2]
        · have h := ih ((b :: rest).drop (decodeRune (b :: rest)).2)
          have hw := decodeRune_width_le b rest
          simp only [groupLen, if_neg h1, if_neg h2]
          simp only [List.length_drop, List.length_cons] at h ⊢
          omega

theorem captureAt_eq_some {s c r : GoString} (h : captureAt s = some (c, r)) :
    s = 0x28 :: c ++ 0x29 :: r ∧ c ≠ [] := by
  cases s with
  | nil => simp [captureAt] at h
  | cons b rest =>
    by_cases hb : b = 0x28
    · simp only [captureAt, if_pos hb] at h
      have hle := groupLen_le rest.length rest
      generalize groupLen rest.length rest = n at h hle
      by_cases hn : n = 0
      · simp [hn] at h
      · simp only [if_neg hn] at h
        split at h
        · rename_i x after hd
          by_cases hx : x = 0x29
          · simp only [if_pos hx, Option.some.injEq, Prod.mk.injEq] at h
            obtain ⟨rfl, rfl⟩ := h
            subst hb hx
            constructor
            · have := List.take_append_drop n rest
              rw [hd] at this
              simp [this]
            · intro h0
              have := congrArg List.length h0
              rw [List.length_take, List.length_nil] at this
              have h2 := congrArg List.length hd
              simp only [List.length_drop, List.length_cons] at h2
              omega
          · simp [hx] at h
        · simp at h
    · simp [captureAt, hb] at h

theorem takeWhile_append_drop (p : Nat → Bool) (l : List Nat) :
    l.takeWhile p ++ l.drop (l.takeWhile p).length = l := by
  induction l with
  | nil => simp
  | cons a l ih => by_cases h : p a <;> simp [List.takeWhile_cons, h, ih]

theorem modifierAt_prefix (s : GoString) : modifierAt s <+: s := by
  cases s with
  | nil => simp [modifierAt]
  | cons b rest =>
    simp only [modifierAt]
    split_ifs
    · exact ⟨rest, rfl⟩
    · exact List.nil_prefix

/-- What a match at the head of a string looks like: it is recorded at the given offset,
it is a non-empty prefix of the string, and an escape match is the whole match, starts
with a backslash and is at least two bytes long. -/
theorem matchHere_spec {off : Nat} {t : GoString} {r : Submatch}
    (h : matchHere off t = some r) :
    r.offset = off ∧ r.m <+: t ∧ r.m ≠ [] ∧
      (r.escaped ≠ [] → r.escaped = r.m ∧ 2 ≤ r.m.length ∧ 0x5C ∈ r.m) := by
  cases t with
  | nil => simp [matchHere] at h
  | cons b rest =>
    by_cases h1 : b = 0x5C
    · cases rest with
      | nil => simp [matchHere, h1] at h
      | cons c r' =>
        by_cases h2 : (decodeRune (c :: r')).1 = 0x0A
        · simp [matchHere, h1, h2] at h
        · simp only [matchHere, if_pos h1, if_neg h2, Option.some.injEq] at h
          subst h
          have hw := decodeRune_width_pos c r'
          refine ⟨rfl, ?_, by simp, fun _ => ⟨rfl, ?_, by simp [h1]⟩⟩
          · exact List.prefix_cons_inj b |>.mpr (List.take_prefix _ _)
          · simp only [List.length_cons, List.length_take]
            omega
    · by_cases h2 : b = 0x3A
      · simp only [matchHere, if_neg h1, if_pos h2] at h
        by_cases hn : List.takeWhile isWord rest = []
        · simp [hn] at h
        · simp only [if_neg hn] at h
          have hsplit := takeWhile_append_drop isWord rest
          generalize List.takeWhile isWord rest = name at h hn hsplit
          generalize List.drop name.length rest = r1 at h hsplit
          subst hsplit
          split at h
          · rename_i capture r2 hc
            simp only [Option.some.injEq] at h
            subst h
            obtain ⟨hr1, _⟩ := captureAt_eq_some hc
            refine ⟨rfl, ?_, by simp, fun hne => absurd rfl hne⟩
            obtain ⟨u, hu⟩ := modifierAt_prefix r2
            refine ⟨u, ?_⟩
            rw [hr1]
            conv_rhs => rw [← hu]
            simp
          · simp only [Option.some.injEq] at h
            subst h
            refine ⟨rfl, ?_, by simp, fun hne => absurd rfl hne⟩
            obtain ⟨u, hu⟩ := modifierAt_prefix r1
            refine ⟨u, ?_⟩
            conv_rhs => rw [← hu]
            simp
      · by_cases h3 : b = 0x28
        · simp only [matchHere, if_neg h1, if_neg h2, if_pos h3] at h
          split at h
          · rename_i group r2 hc
            simp only [Option.some.injEq] at h
            subst h
            obtain ⟨hr1, _⟩ := captureAt_eq_some hc
            refine ⟨rfl, ?_, by simp, fun hne => absurd rfl hne⟩
            obtain ⟨u, hu⟩ := modifierAt_prefix r2
            refine ⟨u, ?_⟩
            rw [hr1]
            conv_rhs => rw [← hu]
            simp [h3]
          · simp at h
        · simp [matchHere, h1, h2, h3] at h

/-! ### The list of matches -/

theorem wellPlaced_mono {n lo lo2 : Nat} {ms : List Submatch} (h : lo2 ≤ lo)
    (hw : wellPlaced n lo ms = true) : wellPlaced n lo2 ms = true := by
  cases ms with
  | nil => rfl
  | cons r rs =>
    simp only [wellPlaced, Bool.and_eq_true, decide_eq_true_eq] at hw ⊢
    exact ⟨⟨⟨by omega, hw.1.1.2⟩, hw.1.2⟩, hw.2⟩

theorem findAllFrom_wellPlaced (fuel off : Nat) (t : GoString) :
    wellPlaced (off + t.length) off (findAllFrom fuel off t) = true := by
  induction fuel generalizing off t with
  | zero => simp [findAllFrom, wellPlaced]
  | succ k ih =>
    cases t with
    | nil => simp [findAllFrom, wellPlaced]
    | cons b rest =>
      simp only [findAllFrom]
      split
      · rename_i res hres
        obtain ⟨ho, hp, hne, hesc⟩ := matchHere_spec hres
        have hlen := hp.length_le
        have ih2 := ih (off + res.m.length) ((b :: rest).drop res.m.length)
        have e : off + res.m.length + ((b :: rest).drop res.m.length).length
            = off + (b :: rest).length := by
          simp only [List.length_drop]; omega
        rw [e] at ih2
        simp only [wellPlaced, Bool.and_eq_true, decide_eq_true_eq, Bool.or_eq_true]
        refine ⟨⟨⟨by omega, by omega⟩, ?_⟩, by rw [ho]; exact ih2⟩
        by_cases he : res.escaped = []
        · left; simpa using he
        · right
          obtain ⟨h1, h2, _⟩ := hesc he
          rw [h1]; exact h2
      · have hw := decodeRune_width_le b rest
        have ih2 := ih (off + (decodeRune (b :: rest)).2)
          ((b :: rest).drop (decodeRune (b :: rest)).2)
        have e : off + (decodeRune (b :: rest)).2 +
            ((b :: rest).drop (decodeRune (b :: rest)).2).length = off + (b :: rest).length := by
          simp only [List.length_drop, List.length_cons]; omega
        rw [e] at ih2
        exact wellPlaced_mono (by omega) ih2

theorem findAll_wellPlaced (s : GoString) : wellPlaced s.length 0 (findAll s) = true := by
  have := findAllFrom_wellPlaced s.length 0 s
  simpa [findAll] using this

/-! ### One iteration of the loop of `Parse` -/

theorem takePrev_nil (o : ParseOptions) (e : Bool) : takePrev o e [] = some ([], []) := by
  simp [takePrev]

theorem takePrev_escaped (o : ParseOptions) (path : GoString) :
    takePrev o true path = some ([], path) := by
  simp [takePrev]

theorem takePrev_snoc (o : ParseOptions) (body : GoString) (c : Nat) :
    takePrev o false (body ++ [c]) =
      some (if IndexRune o.Delimiters c > -1 then (encodeRune c, body) else ([], body ++ [c])) := by
  simp only [takePrev, byteAt, slice]
  simp
  split_ifs <;> simp

/-- The test for a delimiter never faults, and it either leaves the literal alone or cuts
its last byte off. -/
theorem takePrev_total (o : ParseOptions) (e : Bool) (path : GoString) :
    ∃ pp, takePrev o e path = some pp ∧
      ((pp.1 = [] ∧ pp.2 = path) ∨
        ∃ c, path = pp.2 ++ [c] ∧ pp.1 = encodeRune c ∧ e = false ∧
          IndexRune o.Delimiters c > -1) := by
  cases e with
  | true => exact ⟨_, takePrev_escaped o path, Or.inl ⟨rfl, rfl⟩⟩
  | false =>
    rcases List.eq_nil_or_concat path with rfl | ⟨body, c, rfl⟩
    · exact ⟨_, takePrev_nil o false, Or.inl ⟨rfl, rfl⟩⟩
    · rw [List.concat_eq_append]
      refine ⟨_, takePrev_snoc o body c, ?_⟩
      split_ifs with h
      · exact Or.inr ⟨c, rfl, rfl, rfl, h⟩
      · exact Or.inl ⟨rfl, rfl⟩

theorem encodeRune_ne_nil (r : Nat) : encodeRune r ≠ [] := by
  unfold encodeRune
  split_ifs <;> simp

theorem parseStep_escaped (s : GoString) (o : ParseOptions) (st : ParseState) (res : Submatch)
    (e0 e1 : Nat) (es : GoString) (h1 : st.index ≤ res.offset) (h2 : res.offset ≤ s.length)
    (he : res.escaped = e0 :: e1 :: es) :
    parseStep s o st res = some
      { st with
        index := res.offset + res.m.length
        path := st.path ++ (s.take res.offset).drop st.index ++ encodeRune e1
        pathEscaped := true } := by
  simp [parseStep, slice, h1, h2, he, byteAt]

theorem parseStep_param (s : GoString) (o : ParseOptions) (st : ParseState) (res : Submatch)
    (h1 : st.index ≤ res.offset) (h2 : res.offset + res.m.length ≤ s.length)
    (he : res.escaped = []) :
    ∃ pp, takePrev o st.pathEscaped (st.path ++ (s.take res.offset).drop st.index) = some pp ∧
      parseStep s o st res = some
        { tokens :=
            (if pp.2 ≠ [] then st.tokens ++ [{ Name := pp.2, String := true }] else st.tokens) ++
              [paramToken o st.key pp.1 [] res]
          key := st.key + 1
          index := res.offset + res.m.length
          path := []
          pathEscaped := if pp.2 ≠ [] then false else st.pathEscaped } := by
  obtain ⟨pp, hpp, _⟩ := takePrev_total o st.pathEscaped
    (st.path ++ (s.take res.offset).drop st.index)
  refine ⟨pp, hpp, ?_⟩
  have h3 : res.offset ≤ s.length := by omega
  have h4 : ¬ (res.offset + res.m.length > s.length) := by omega
  simp [parseStep, slice, h1, h3, he, h4, hpp]

/-- An iteration of the loop on a match that lies inside the string, at or after the
current index, never faults, and it moves the index to the end of the match. -/
theorem parseStep_total (s : GoString) (o : ParseOptions) (st : ParseState) (res : Submatch)
    (h1 : st.index ≤ res.offset) (h2 : res.offset + res.m.length ≤ s.length)
    (h3 : res.escaped = [] ∨ 2 ≤ res.escaped.length) :
    ∃ st2, parseStep s o st res = some st2 ∧ st2.index = res.offset + res.m.length := by
  by_cases he : res.escaped = []
  · obtain ⟨pp, _, h⟩ := parseStep_param s o st res h1 h2 he
    exact ⟨_, h, rfl⟩
  · have h4 : 2 ≤ res.escaped.length := h3.resolve_left he
    match hm : res.escaped, h4 with
    | e0 :: e1 :: es, _ =>
      exact ⟨_, parseStep_escaped s o st res e0 e1 es h1 (by omega) hm, rfl⟩

/-- The loop of `Parse` over well-placed matches never faults, and a property of the loop
state that every in-range iteration keeps holds at the end of the loop. -/
theorem parseLoop_induct (P : ParseState → Prop) (s : GoString) (o : ParseOptions)
    (hstep : ∀ st res st2, P st → st.index ≤ res.offset → res.offset + res.m.length ≤ s.length →
      (res.escaped = [] ∨ 2 ≤ res.escaped.length) → parseStep s o st res = some st2 → P st2)
    (ms : List Submatch) (st : ParseState) (lo : Nat)
    (hw : wellPlaced s.length lo ms = true) (hi : st.index ≤ lo) (hn : st.index ≤ s.length)
    (hP : P st) :
    ∃ st2, parseLoop s o ms st = some st2 ∧ P st2 ∧ st2.index ≤ s.length := by
  induction ms generalizing st lo with
  | nil => exact ⟨st, rfl, hP, hn⟩
  | cons r rs ih =>
    simp only [wellPlaced, Bool.and_eq_true, decide_eq_true_eq, Bool.or_eq_true] at hw
    obtain ⟨⟨⟨hlo, hhi⟩, hesc⟩, hrest⟩ := hw
    have h3 : r.escaped = [] ∨ 2 ≤ r.escaped.length := by
      rcases hesc with h | h
      · left; simpa using h
      · right; exact h
    obtain ⟨st1, hst1, hidx⟩ := parseStep_total s o st r (by omega) hhi h3
    have hP1 := hstep st r st1 hP (by omega) hhi h3 hst1
    obtain ⟨st2, hst2, hP2, hn2⟩ := ih st1 (r.offset + r.m.length) hrest (by omega) (by omega) hP1
    exact ⟨st2, by simp [parseLoop, hst1, hst2], hP2, hn2⟩

/-- The statements after the loop never fault when the index is inside the string. -/
theorem parseFinish_eq (s : GoString) (st : ParseState) (h : st.index ≤ s.length) :
    parseFinish s st = some
      (if st.path.length > 0 ∨ st.index < s.length then
        st.tokens ++ [{ Name := st.path ++ s.drop st.index, String := true }]
      else st.tokens) := by
  simp only [parseFinish, sliceFrom, if_pos h]
  split_ifs <;> simp

theorem Parse_eq_of_loop (s : GoString) (o : Option ParseOptions) (st : ParseState)
    (hst : parseLoop s (o.getD NewParseOptions) (findAll s) ⟨[], 0, 0, [], false⟩ = some st)
    (hn : st.index ≤ s.length) :
    Parse s o = some
      (if st.path.length > 0 ∨ st.index < s.length then
        st.tokens ++ [{ Name := st.path ++ s.drop st.index, String := true }]
      else st.tokens) := by
  simp only [Parse, hst, Option.some_bind, parseFinish_eq s st hn]

/-- The result of `Parse` in terms of the final state of its loop, which satisfies every
property that the initial state has and that every in-range iteration keeps. -/
theorem Parse_induct (P : ParseState → Prop) (s : GoString) (o : Option ParseOptions)
    (hstep : ∀ st res st2, P st → st.index ≤ res.offset → res.offset + res.m.length ≤ s.length →
      (res.escaped = [] ∨ 2 ≤ res.escaped.length) →
      parseStep s (o.getD NewParseOptions) st res = some st2 → P st2)
    (h0 : P ⟨[], 0, 0, [], false⟩) :
    ∃ st, P st ∧ st.index ≤ s.length ∧
      parseLoop s (o.getD NewParseOptions) (findAll s) ⟨[], 0, 0, [], false⟩ = some st ∧
      Parse s o = some
        (if st.path.length > 0 ∨ st.index < s.length then
          st.tokens ++ [{ Name := st.path ++ s.drop st.index, String := true }]
        else st.tokens) := by
  obtain ⟨st, hst, hP, hn⟩ := parseLoop_induct P s (o.getD NewParseOptions) hstep (findAll s)
    ⟨[], 0, 0, [], false⟩ 0 (findAll_wellPlaced s) (Nat.le_refl _) (Nat.zero_le _) h0
  exact ⟨st, hP, hn, hst, Parse_eq_of_loop s o st hst hn⟩

/-- The function `Parse` returns a token list on every input: no index or slice
expression of its body is ever out of range. -/
theorem Parse_total (s : GoString) (o : Option ParseOptions) : ∃ ts, Parse s o = some ts := by
  obtain ⟨st, _, _, _, h⟩ := Parse_induct (fun _ => True) s o (fun _ _ _ _ _ _ _ _ => trivial)
    trivial
  exact ⟨_, h⟩

/-- The two outcomes of an in-range iteration: an escape match extends the buffered
literal, any other match flushes the literal and appends a parameter token. -/
theorem parseStep_cases (s : GoString) (o : ParseOptions) (st : ParseState) (res : Submatch)
    (st2 : ParseState) (h1 : st.index ≤ res.offset) (h2 : res.offset + res.m.length ≤ s.length)
    (h3 : res.escaped = [] ∨ 2 ≤ res.escaped.length) (h : parseStep s o st res = some st2) :
    (res.escaped ≠ [] ∧ ∃ e1, st2 =
        { st with
          index := res.offset + res.m.length
          path := st.path ++ (s.take res.offset).drop st.index ++ encodeRune e1
          pathEscaped := true }) ∨
    (res.escaped = [] ∧
      ∃ pp, takePrev o st.pathEscaped (st.path ++ (s.take res.offset).drop st.index) = some pp ∧
        st2 =
          { tokens :=
              (if pp.2 ≠ [] then st.tokens ++ [{ Name := pp.2, String := true }]
                else st.tokens) ++ [paramToken o st.key pp.1 [] res]
            key := st.key + 1
            index := res.offset + res.m.length
            path := []
            pathEscaped := if pp.2 ≠ [] then false else st.pathEscaped }) := by
  by_cases he : res.escaped = []
  · right
    obtain ⟨pp, hpp, h5⟩ := parseStep_param s o st res h1 h2 he
    rw [h5] at h
    exact ⟨he, pp, hpp, (Option.some.inj h).symm⟩
  · left
    have h4 : 2 ≤ res.escaped.length := h3.resolve_left he
    match hm : res.escaped, h4 with
    | e0 :: e1 :: es, _ =>
      rw [parseStep_escaped s o st res e0 e1 es h1 (by omega) hm] at h
      exact ⟨by simp, e1, (Option.some.inj h).symm⟩

theorem literalsNonEmpty_append (a b : List Token) :
    literalsNonEmpty (a ++ b) = (literalsNonEmpty a && literalsNonEmpty b) := by
  simp [literalsNonEmpty]

theorem paramToken_String (o : ParseOptions) (key : Nat) (prev next : GoString)
    (res : Submatch) : (paramToken o key prev next res).String = false := rfl

/-- Every literal token that `Parse` returns has a non-empty text. -/
theorem Parse_literalsNonEmpty (s : GoString) (o : Option ParseOptions) :
    ∃ ts, Parse s o = some ts ∧ literalsNonEmpty ts = true := by
  obtain ⟨st, hP, _, _, h⟩ := Parse_induct (fun st => literalsNonEmpty st.tokens = true) s o
    (by
      intro st res st2 hP h1 h2 h3 h
      rcases parseStep_cases s _ st res st2 h1 h2 h3 h with ⟨_, e1, rfl⟩ | ⟨_, pp, _, rfl⟩
      · exact hP
      · by_cases hp : pp.2 = []
        · simp only [hp, ne_eq, not_true_eq_false, if_false, literalsNonEmpty_append, hP]
          simp [literalsNonEmpty, paramToken_String]
        · simp only [hp, ne_eq, not_false_eq_true, if_true, literalsNonEmpty_append, hP]
          simp [literalsNonEmpty, paramToken_String, hp])
    rfl
  refine ⟨_, h, ?_⟩
  split_ifs with hc
  · rw [literalsNonEmpty_append, hP]
    simp only [literalsNonEmpty, List.all_cons, List.all_nil, Bool.and_true, Bool.true_and,
      Bool.not_true, Bool.false_or, decide_eq_true_eq, ne_eq, List.append_eq_nil, not_and]
    intro hp hd
    rcases hc with hc | hc
    · simp [hp] at hc
    · have := congrArg List.length hd
      simp only [List.length_drop, List.length_nil] at this
      omega
  · exact hP

/-! ### The token loop of `PathToRegexp` -/

/-- The token loop never faults on tokens whose literals are non-empty, and the list
`keys` it builds is the list of the parameter tokens, in order. -/
theorem routeLoop_keys (o : ParseOptions) (n : Nat) (ts : List Token) (i : Nat) (st : RouteState)
    (h : literalsNonEmpty ts = true) :
    ∃ st2, routeLoop o n i ts st = some st2 ∧
      st2.keys = st.keys ++ ts.filter (fun t => !t.String) := by
  induction ts generalizing i st with
  | nil => exact ⟨st, rfl, by simp⟩
  | cons t rest ih =>
    simp only [literalsNonEmpty, List.all_cons, Bool.and_eq_true, Bool.or_eq_true,
      Bool.not_eq_true', decide_eq_true_eq] at h
    obtain ⟨ht, hrest⟩ := h
    have hstep : ∃ st1, routeStep o n i t st = some st1 ∧
        st1.keys = st.keys ++ [t].filter (fun t => !t.String) := by
      by_cases hs : t.String = true
      · have hne : t.Name ≠ [] := by
          rcases ht with h | h
          · simp [hs] at h
          · exact h
        have hlt : t.Name.length - 1 < t.Name.length := by
          have := List.length_pos.mpr hne
          omega
        simp only [routeStep, hs, if_true, byteAt, List.get?_eq_getElem?,
          List.getElem?_eq_getElem hlt, Option.map_some']
        split_ifs <;> exact ⟨_, rfl, by simp [hs]⟩
      · simp only [Bool.not_eq_true] at hs
        simp only [routeStep, hs]
        exact ⟨_, rfl, by simp [hs]⟩
    obtain ⟨st1, h1, hk1⟩ := hstep
    obtain ⟨st2, h2, hk2⟩ := ih (i + 1) st1 (by simpa [literalsNonEmpty] using hrest)
    refine ⟨st2, by simp [routeLoop, h1, h2], ?_⟩
    rw [hk2, hk1]
    by_cases hs : t.String = true <;> simp [hs, List.filter_cons]

/-! ### Scanning text without matches -/

theorem findAllFrom_nil (fuel off : Nat) : findAllFrom fuel off [] = [] := by
  cases fuel <;> rfl

/-- The bound on the number of attempts does not matter once it is at least the length
of the string. -/
theorem findAllFrom_fuel (f1 f2 off : Nat) (t : GoString) (h1 : t.length ≤ f1)
    (h2 : t.length ≤ f2) : findAllFrom f1 off t = findAllFrom f2 off t := by
  induction f1 generalizing f2 off t with
  | zero =>
    have : t = [] := List.length_eq_zero.mp (Nat.le_zero.mp h1)
    subst this
    simp [findAllFrom_nil]
  | succ k ih =>
    cases t with
    | nil => simp [findAllFrom_nil]
    | cons b rest =>
      cases f2 with
      | zero => simp at h2
      | succ k2 =>
        simp only [findAllFrom]
        simp only [List.length_cons] at h1 h2
        split
        · rename_i res hres
          obtain ⟨_, hp, hne, _⟩ := matchHere_spec hres
          have hpos : 0 < res.m.length := List.length_pos.mpr hne
          rw [ih k2 _ _ (by simp only [List.length_drop, List.length_cons]; omega)
            (by simp only [List.length_drop, List.length_cons]; omega)]
        · have hw := decodeRune_width_pos b rest
          exact ih k2 _ _ (by simp only [List.length_drop, List.length_cons]; omega)
            (by simp only [List.length_drop, List.length_cons]; omega)

theorem matchHere_plain (off b : Nat) (rest : GoString) (h : isPlain b = true) :
    matchHere off (b :: rest) = none := by
  simp only [isPlain, Bool.and_eq_true, decide_eq_true_eq] at h
  simp [matchHere, h.1.1, h.1.2, h.2]

/-- The first rune of a string lies inside its non-empty initial part `p` when the byte
after `p`, if any, is an ASCII byte. -/
theorem decodeRune_width_le_left (p q : GoString) (hp : p ≠ [])
    (hq : ∀ b ∈ q.head?, b < 0x80) : (decodeRune (p ++ q)).2 ≤ p.length := by
  obtain ⟨a, p2, rfl⟩ := List.exists_cons_of_ne_nil hp
  rw [List.cons_append]
  rcases decodeRune_cases a (p2 ++ q) with h | ⟨h, _, s1, t, e, h1⟩ | ⟨h, _, s1, s2, t, e, h1, h2⟩ |
    ⟨h, _, s1, s2, s3, t, e, h1, h2, h3⟩
  · rw [h]; simp
  · rw [h]
    match p2, e with
    | [], e =>
      have := hq s1 (by simp at e; simp [e])
      omega
    | _ :: _, _ => simp
  · rw [h]
    match p2, e with
    | [], e =>
      have := hq s1 (by simp at e; simp [e])
      omega
    | [_], e =>
      have := hq s2 (by simp at e; simp [e])
      omega
    | _ :: _ :: _, _ => simp
  · rw [h]
    match p2, e with
    | [], e =>
      have := hq s1 (by simp at e; simp [e])
      omega
    | [_], e =>
      have := hq s2 (by simp at e; simp [e])
      omega
    | [_, _], e =>
      have := hq s3 (by simp at e; simp [e])
      omega
    | _ :: _ :: _ :: _, _ => simp

/-- Text made of plain bytes holds no match: the scan passes over it, provided the byte
that follows is an ASCII byte (or the text ends the string). -/
theorem findAllFrom_plain (p q : GoString) (fuel off : Nat)
    (hp : ∀ b ∈ p, isPlain b = true) (hq : ∀ b ∈ q.head?, b < 0x80)
    (hf : (p ++ q).length ≤ fuel) :
    findAllFrom fuel off (p ++ q) = findAllFrom q.length (off + p.length) q := by
  induction fuel generalizing p off with
  | zero =>
    have h0 : p ++ q = [] := List.length_eq_zero.mp (Nat.le_zero.mp hf)
    obtain ⟨rfl, rfl⟩ := List.append_eq_nil.mp h0
    simp [findAllFrom_nil]
  | succ k ih =>
    cases p with
    | nil =>
      simp only [List.nil_append, List.length_nil, Nat.add_zero]
      exact findAllFrom_fuel _ _ _ _ (by simpa using hf) (Nat.le_refl _)
    | cons b p2 =>
      have hb : isPlain b = true := hp b (by simp)
      have hw := decodeRune_width_le_left (b :: p2) q (by simp) hq
      have hw1 := decodeRune_width_pos b (p2 ++ q)
      simp only [List.cons_append] at hw ⊢
      simp only [findAllFrom, matchHere_plain off b (p2 ++ q) hb]
      generalize hwd : (decodeRune (b :: (p2 ++ q))).2 = w at hw hw1
      have e : (b :: (p2 ++ q)).drop w = (b :: p2).drop w ++ q := by
        rw [← List.cons_append]
        exact List.drop_append_of_le_length hw
      rw [e]
      rw [ih ((b :: p2).drop w) (off + w)
        (fun x hx => hp x (List.mem_of_mem_drop hx)) (by
          simp only [List.cons_append, List.length_append, List.length_drop,
            List.length_cons] at hf ⊢
          omega)]
      congr 1
      simp only [List.length_drop, List.length_cons] at hw ⊢
      omega

/-- A string of plain bytes holds no match of `PATH_REGEXP`. -/
theorem findAll_plain (p : GoString) (hp : ∀ b ∈ p, isPlain b = true) : findAll p = [] := by
  have := findAllFrom_plain p [] p.length 0 hp (by simp) (by simp)
  simpa [findAll, findAllFrom_nil] using this

/-- On a pattern without matches `Parse` returns the pattern as one literal token, or no
token when the pattern is empty. -/
theorem Parse_of_findAll_nil (s : GoString) (o : Option ParseOptions) (h : findAll s = []) :
    Parse s o = some (if s = [] then [] else [{ Name := s, String := true }]) := by
  simp only [Parse, h, parseLoop, Option.some_bind, parseFinish, sliceFrom]
  cases s with
  | nil => simp
  | cons b rest => simp

theorem routeEnd_default (b : Bool) :
    routeEnd NewParseOptions NewOptions b = bytes "(?:/)?$" := by
  cases b <;> decide

/-- C7: for a pattern that contains no backslash, colon or opening parenthesis, and so
no parameter, the expression that `PathToRegexp` assembles under the default options is
`^`, then the escaped pattern, then `(?:/)?$`; it has no parameter token. -/
theorem C7_literal_pattern_expression (pattern : GoString)
    (h : ∀ b ∈ pattern, b ≠ 0x5C ∧ b ≠ 0x3A ∧ b ≠ 0x28) :
    routeOf pattern NewOptions =
      some (bytes "^" ++ escapeString pattern ++ bytes "(?:/)?$", []) := by
  have hp : ∀ b ∈ pattern, isPlain b = true := by
    intro b hb
    obtain ⟨h1, h2, h3⟩ := h b hb
    simp [isPlain, h1, h2, h3]
  have hparse := Parse_of_findAll_nil pattern (some NewParseOptions)
    (findAll_plain pattern hp)
  have hpo : NewOptions.ParseOptions = some NewParseOptions := rfl
  simp only [routeOf, hparse, Option.some_bind, hpo]
  by_cases he : pattern = []
  · subst he
    simp only [if_true, routeLoop, Option.map_some', routeEnd_default]
    rfl
  · have hlt : pattern.length - 1 < pattern.length := by
      have := List.length_pos.mpr he
      omega
    simp only [if_neg he, routeLoop, routeStep, if_true, byteAt, List.get?_eq_getElem?,
      List.getElem?_eq_getElem hlt, Option.map_some', Option.some_bind, routeEnd_default]
    simp [NewOptions]

/-- C7, an instance: the pattern `/a.b`. -/
theorem C7_literal_pattern_expression_witness :
    (∀ b ∈ bytes "/a.b", b ≠ 0x5C ∧ b ≠ 0x3A ∧ b ≠ 0x28) ∧
      routeOf (bytes "/a.b") NewOptions = some (bytes "^/a\\.b(?:/)?$", []) :=
  ⟨by decide, C7_literal_pattern_expression (bytes "/a.b") (by decide)⟩

theorem isPlain_of_isWord (b : Nat) (h : isWord b = true) : isPlain b = true := by
  simp only [isWord, Bool.or_eq_true, Bool.and_eq_true, decide_eq_true_eq] at h
  simp only [isPlain, Bool.and_eq_true, decide_eq_true_eq]
  omega

/-- The matches in plain text followed by an escaped colon and word characters: the one
escape match. -/
theorem findAll_escaped_colon (p w : GoString) (hp : ∀ b ∈ p, isPlain b = true)
    (hw : ∀ b ∈ w, isWord b = true) :
    findAll (p ++ 0x5C :: 0x3A :: w) =
      [⟨p.length, [0x5C, 0x3A], [0x5C, 0x3A], [], [], [], []⟩] := by
  have h1 := findAllFrom_plain p (0x5C :: 0x3A :: w) (p ++ 0x5C :: 0x3A :: w).length 0 hp
    (by simp) (Nat.le_refl _)
  have h2 := findAllFrom_plain w [] (w.length + 1) (p.length + 2)
    (fun b hb => isPlain_of_isWord b (hw b hb)) (by simp) (by simp)
  simp only [List.append_nil, findAllFrom_nil] at h2
  rw [findAll, h1]
  simp only [List.length_cons, Nat.zero_add, findAllFrom, matchHere, if_true]
  simp [decodeRune, h2]

/-- C9: for a literal text `p` free of backslash, colon and opening parenthesis and an
identifier `w` of word characters, `Parse` of `p`, an escaped colon and `w` returns no
parameter token: it returns the single literal token whose text is `p`, a colon and `w`. -/
theorem C9_escaped_colon_is_literal (p w : GoString) (options : Option ParseOptions)
    (hp : ∀ b ∈ p, b ≠ 0x5C ∧ b ≠ 0x3A ∧ b ≠ 0x28) (hw : ∀ b ∈ w, isWord b = true) :
    Parse (p ++ bytes "\\:" ++ w) options =
      some [{ Name := p ++ bytes ":" ++ w, String := true }] := by
  have hp2 : ∀ b ∈ p, isPlain b = true := by
    intro b hb
    obtain ⟨h1, h2, h3⟩ := hp b hb
    simp [isPlain, h1, h2, h3]
  have e1 : p ++ bytes "\\:" ++ w = p ++ 0x5C :: 0x3A :: w := by
    rw [show bytes "\\:" = [0x5C, 0x3A] from by decide]; simp
  have e2 : bytes ":" = [0x3A] := by decide
  rw [e1, e2]
  have hstep := parseStep_escaped (p ++ 0x5C :: 0x3A :: w) (options.getD NewParseOptions)
    ⟨[], 0, 0, [], false⟩ ⟨p.length, [0x5C, 0x3A], [0x5C, 0x3A], [], [], [], []⟩ 0x5C 0x3A []
    (Nat.zero_le _) (by simp) rfl
  simp only [Parse, findAll_escaped_colon p w hp2 hw, parseLoop, hstep, Option.some_bind,
    parseFinish, sliceFrom]
  simp [encodeRune]

/-- C9, an instance: the pattern `/a\:b`, which parses to the one literal `/a:b`. -/
theorem C9_escaped_colon_is_literal_witness :
    (∀ b ∈ bytes "/a", b ≠ 0x5C ∧ b ≠ 0x3A ∧ b ≠ 0x28) ∧
      (∀ b ∈ bytes "b", isWord b = true) ∧
      Parse (bytes "/a\\:b") none = some [{ Name := bytes "/a:b", String := true }] :=
  ⟨by decide, by decide,
    C9_escaped_colon_is_literal (bytes "/a") (bytes "b") none (by decide) (by decide)⟩

/-- C10, as amended: for every ASCII character `c` other than the newline, `Parse` of
the two-byte pattern made of a backslash and `c` returns exactly one literal token,
whose text is `c` alone. -/
theorem C10_escaped_ascii_char (c : Nat) (options : Option ParseOptions) (hc : c < 0x80)
    (hn : c ≠ 0x0A) :
    Parse [0x5C, c] options = some [{ Name := [c], String := true }] := by
  have hf : findAll [0x5C, c] = [⟨0, [0x5C, c], [0x5C, c], [], [], [], []⟩] := by
    simp [findAll, findAllFrom, matchHere, decodeRune, hc, hn]
  simp [Parse, hf, parseLoop, parseStep, slice, byteAt, parseFinish, sliceFrom, encodeRune, hc]

/-- C10, an instance of the amended claim: the pattern `\.`. -/
theorem C10_escaped_ascii_char_witness :
    (0x2E < 0x80 ∧ 0x2E ≠ 0x0A) ∧
      Parse (bytes "\\.") none = some [{ Name := bytes ".", String := true }] :=
  ⟨by decide, C10_escaped_ascii_char 0x2E none (by decide) (by decide)⟩

/-- C10 fails for the newline: a backslash followed by a newline is not an escape of the
grammar, and `Parse` returns the two bytes as the literal, backslash included. -/
theorem C10_newline_counterexample :
    Parse (bytes "\\\n") none = some [{ Name := bytes "\\\n", String := true }] ∧
      Parse (bytes "\\\n") none ≠ some [{ Name := bytes "\n", String := true }] := by
  decide

/-! ### The results of `PathToRegexp` -/

/-- The selector `options.Delimiter` of line 179 faults on a `nil` embedded pointer:
nothing is assembled, whatever the pattern. -/
theorem routeOf_nil (path : GoString) (o : Options) (h : o.ParseOptions = none) :
    routeOf path o = none := by
  simp only [routeOf, h, Option.none_bind]
  cases Parse path none <;> rfl

/-- With an embedded pointer that is not `nil`, `PathToRegexp` assembles an expression on
every pattern, and its list `keys` is the list of the parameter tokens of `Parse`, in
order. -/
theorem routeOf_keys (path : GoString) (o : Options) (po : ParseOptions)
    (h : o.ParseOptions = some po) :
    ∃ tokens route, Parse path (some po) = some tokens ∧
      routeOf path o = some (route, tokens.filter (fun t => !t.String)) := by
  obtain ⟨tokens, hparse, hlit⟩ := Parse_literalsNonEmpty path (some po)
  obtain ⟨st, hloop, hkeys⟩ := routeLoop_keys po tokens.length tokens 0
    ⟨if o.Start then bytes "^" else [], [], tokens.length = 0⟩ hlit
  refine ⟨tokens, st.route ++ routeEnd po o st.isEndDelimited, hparse, ?_⟩
  simp only [routeOf, h, hparse, Option.some_bind, hloop, Option.map_some', hkeys,
    List.nil_append]

/-- C2: for every pattern and all options, the token list that `PathToRegexp` returns is
the sub-list of `Parse(pattern, options.ParseOptions)` made of the tokens that are not
literals, in the same order, whatever `regexp.Compile` answers: the same list comes with
the compiled expression when compiling succeeds and with the error when it fails.
`PathToRegexp` returns whenever the embedded pointer `options.ParseOptions` is not `nil`
(a `nil` options pointer stands for `NewOptions()`); when it is `nil`, the call faults at
line 179 and returns no list. -/
theorem C2_keys_are_parameter_tokens (path : GoString) (options : Option Options) :
    ((options.getD NewOptions).ParseOptions = none →
        ∀ (R E : Type) (compile : GoString → Except E R),
          PathToRegexp compile path options = none) ∧
      ∀ po, (options.getD NewOptions).ParseOptions = some po →
        ∃ tokens route, Parse path (options.getD NewOptions).ParseOptions = some tokens ∧
          ∀ (R E : Type) (compile : GoString → Except E R),
            ∃ r, PathToRegexp compile path options = some r ∧
              r.keys = tokens.filter (fun t => !t.String) ∧
              (∀ e, compile route = .error e → r.reg = none ∧ r.err = some e) ∧
              (∀ g, compile route = .ok g → r.reg = some g ∧ r.err = none) := by
  constructor
  · intro h R E compile
    simp only [PathToRegexp, routeOf_nil path _ h, Option.map_none']
  · intro po h
    obtain ⟨tokens, route, hparse, hroute⟩ := routeOf_keys path (options.getD NewOptions) po h
    refine ⟨tokens, route, by rw [h]; exact hparse, ?_⟩
    intro R E compile
    simp only [PathToRegexp, hroute, Option.map_some']
    cases hc : compile route with
    | error e =>
      refine ⟨_, rfl, rfl, ?_, ?_⟩ <;> intro x h <;> cases h
      exact ⟨rfl, rfl⟩
    | ok g =>
      refine ⟨_, rfl, rfl, ?_, ?_⟩ <;> intro x h <;> cases h
      exact ⟨rfl, rfl⟩

/-- C1 fails on the pattern `:id(\(a\))` under the default options: `escapeGroup` puts a
second backslash before each escaped parenthesis, the assembled expression is
`^(\\(a\\))(?:/)?$`, and it has two capturing groups where one parameter token is
returned. -/
theorem C1_escaped_parenthesis_adds_group :
    routeOf (bytes ":id(\\(a\\))") NewOptions =
        some (bytes "^(\\\\(a\\\\))(?:/)?$",
          [{ Name := bytes "id", Delimiter := bytes "/", Pattern := bytes "\\\\(a\\\\)",
             String := false }]) ∧
      numSubexp (bytes "^(\\\\(a\\\\))(?:/)?$") = 2 := by
  decide

/-- C3 fails on the pattern `/:foo/(\d+)`: the counter `key` is incremented for the named
parameter `foo` as well, and the one unnamed group is named `2`. -/
theorem C3_unnamed_group_counts_named :
    Parse (bytes "/:foo/(\\d+)") none = some
      [{ Name := bytes "foo", Prefix := bytes "/", Delimiter := bytes "/",
         Pattern := bytes "[^/]+?", String := false },
       { Name := bytes "2", Prefix := bytes "/", Delimiter := bytes "/",
         Pattern := bytes "\\d+", String := false }] := by
  decide

/-- C4 fails on the pattern `/:foo?bar`: the token `foo` has the prefix `/`, the character
`b` follows its match and differs from the prefix, and yet `Partial` is false. -/
theorem C4_partial_is_false :
    Parse (bytes "/:foo?bar") none = some
      [{ Name := bytes "foo", Prefix := bytes "/", Delimiter := bytes "/", Optional := true,
         Partial := false, Pattern := bytes "[^/]+?", String := false },
       { Name := bytes "bar", String := true }] := by
  decide

/-- C6 fails: for the pattern `/a/:b/:c?` with `End` false and the other options at
their defaults, the expression handed to `regexp.Compile` is
`^/a/([^/]+?)(?:/([^/]+?))?(?:/(?=$))?(?=/|$)`, which contains the lookahead group `(?=`. -/
theorem C6_prefix_mode_expression :
    routeOf (bytes "/a/:b/:c?") { NewOptions with End := false } =
        some (bytes "^/a/([^/]+?)(?:/([^/]+?))?(?:/(?=$))?(?=/|$)",
          [{ Name := bytes "b", Prefix := bytes "/", Delimiter := bytes "/",
             Pattern := bytes "[^/]+?", String := false },
           { Name := bytes "c", Prefix := bytes "/", Delimiter := bytes "/", Optional := true,
             Pattern := bytes "[^/]+?", String := false }]) ∧
      bytes "(?=" <:+: bytes "^/a/([^/]+?)(?:/([^/]+?))?(?:/(?=$))?(?=/|$)" := by
  decide

/-! ### The loop of `Parse`, match by match -/

theorem parseLoop_append_eq (s : GoString) (o : ParseOptions) (pre rest : List Submatch)
    (st : ParseState) :
    parseLoop s o (pre ++ rest) st = (parseLoop s o pre st).bind (parseLoop s o rest) := by
  induction pre generalizing st with
  | nil => simp [parseLoop]
  | cons r rs ih =>
    simp only [List.cons_append, parseLoop]
    cases parseStep s o st r with
    | none => simp
    | some st1 => simp [ih]

/-- The loop over the first matches of a well-placed list never faults, keeps every
property that in-range iterations keep, and leaves the index at or before the next match. -/
theorem parseLoop_append (P : ParseState → Prop) (s : GoString) (o : ParseOptions)
    (hstep : ∀ st res st2, P st → st.index ≤ res.offset → res.offset + res.m.length ≤ s.length →
      (res.escaped = [] ∨ 2 ≤ res.escaped.length) → parseStep s o st res = some st2 → P st2)
    (pre rest : List Submatch) (st : ParseState) (lo : Nat)
    (hw : wellPlaced s.length lo (pre ++ rest) = true) (hi : st.index ≤ lo)
    (hn : st.index ≤ s.length) (hP : P st) :
    ∃ st2 lo2, parseLoop s o pre st = some st2 ∧ P st2 ∧ st2.index ≤ lo2 ∧
      st2.index ≤ s.length ∧ wellPlaced s.length lo2 rest = true := by
  induction pre generalizing st lo with
  | nil => exact ⟨st, lo, rfl, hP, hi, hn, hw⟩
  | cons r rs ih =>
    simp only [List.cons_append, wellPlaced, Bool.and_eq_true, decide_eq_true_eq,
      Bool.or_eq_true] at hw
    obtain ⟨⟨⟨hlo, hhi⟩, hesc⟩, hrest⟩ := hw
    have h3 : r.escaped = [] ∨ 2 ≤ r.escaped.length := by
      rcases hesc with h | h
      · left; simpa using h
      · right; exact h
    obtain ⟨st1, hst1, hidx⟩ := parseStep_total s o st r (by omega) hhi h3
    have hP1 := hstep st r st1 hP (by omega) hhi h3 hst1
    obtain ⟨st2, lo2, hst2, hP2, hi2, hn2, hw2⟩ :=
      ih st1 (r.offset + r.m.length) hrest (by omega) (by omega) hP1
    exact ⟨st2, lo2, by simp [parseLoop, hst1, hst2], hP2, hi2, hn2, hw2⟩

/-- The two outcomes of the test for a delimiter at the end of the buffered literal. -/
theorem takePrev_spec (o : ParseOptions) (e : Bool) (lit : GoString) (pp : GoString × GoString)
    (h : takePrev o e lit = some pp) :
    (e = false ∧ ∃ body c, lit = body ++ [c] ∧ IndexRune o.Delimiters c > -1 ∧
        pp = (encodeRune c, body)) ∨
      ((e = true ∨ lit = [] ∨ ∃ body c, lit = body ++ [c] ∧ ¬ IndexRune o.Delimiters c > -1) ∧
        pp = ([], lit)) := by
  cases e with
  | true =>
    rw [takePrev_escaped] at h
    exact Or.inr ⟨Or.inl rfl, (Option.some.inj h).symm⟩
  | false =>
    rcases List.eq_nil_or_concat lit with rfl | ⟨body, c, rfl⟩
    · rw [takePrev_nil] at h
      exact Or.inr ⟨Or.inr (Or.inl rfl), (Option.some.inj h).symm⟩
    · rw [List.concat_eq_append] at h ⊢
      rw [takePrev_snoc] at h
      have h := (Option.some.inj h).symm
      by_cases hd : IndexRune o.Delimiters c > -1
      · rw [if_pos hd] at h
        exact Or.inl ⟨rfl, body, c, rfl, hd, h⟩
      · rw [if_neg hd] at h
        exact Or.inr ⟨Or.inr (Or.inr ⟨body, c, rfl, hd⟩), h⟩

/-- Tokens are only ever appended: the tokens of a loop state stay the first tokens of
the result of `Parse`. -/
theorem parseLoop_tokens_prefix (s : GoString) (o : ParseOptions) (ms : List Submatch)
    (st : ParseState) (lo : Nat) (hw : wellPlaced s.length lo ms = true) (hi : st.index ≤ lo)
    (hn : st.index ≤ s.length) :
    ∃ st2 ts, parseLoop s o ms st = some st2 ∧ parseFinish s st2 = some ts ∧
      st.tokens <+: ts := by
  obtain ⟨st2, hst2, hP, hn2⟩ := parseLoop_induct (fun x => st.tokens <+: x.tokens) s o
    (by
      intro a res b hP h1 h2 h3 h
      rcases parseStep_cases s o a res b h1 h2 h3 h with ⟨_, e1, rfl⟩ | ⟨_, pp, _, rfl⟩
      · exact hP
      · simp only
        split_ifs
        · rw [List.append_assoc]
          exact hP.trans (List.prefix_append _ _)
        · exact hP.trans (List.prefix_append _ _))
    ms st lo hw hi hn (List.prefix_refl _)
  refine ⟨st2, _, hst2, parseFinish_eq s st2 hn2, ?_⟩
  split_ifs
  · exact hP.trans (List.prefix_append _ _)
  · exact hP

/-- The byte search finds a byte exactly when it is in the string. -/
theorem indexByte_mem (d : GoString) (c : Nat) : indexByte d c > -1 ↔ c ∈ d := by
  induction d with
  | nil => simp [indexByte]
  | cons b rest ih =>
    simp only [indexByte, List.mem_cons]
    by_cases hb : b = c
    · simp [hb]
    · rw [if_neg hb]
      have hcb : ¬ c = b := fun h => hb h.symm
      by_cases hi : indexByte rest c < 0
      · simp only [hi, if_true, hcb, false_or]
        constructor
        · intro h; exact absurd h (by decide)
        · intro h
          have := ih.mpr h
          omega
      · simp only [hi, if_false, hcb, false_or]
        constructor
        · intro _
          exact ih.mp (by omega)
        · intro _
          omega

/-- For an ASCII character, `strings.IndexRune` finds it exactly when its byte is in the
string. -/
theorem IndexRune_ascii (d : GoString) (c : Nat) (hc : c < 0x80) :
    IndexRune d c > -1 ↔ c ∈ d := by
  simp only [IndexRune, if_pos hc]
  exact indexByte_mem d c

/-- Between two iterations of the loop of `Parse`, `pathEscaped` is set exactly when the
buffered literal is not empty: text enters the buffer across iterations with an escape
match only, and a parameter match empties it. -/
theorem pathEscaped_iff_step (s : GoString) (o : ParseOptions) (st : ParseState)
    (res : Submatch) (st2 : ParseState) (hP : st.pathEscaped = true ↔ st.path ≠ [])
    (h1 : st.index ≤ res.offset) (h2 : res.offset + res.m.length ≤ s.length)
    (h3 : res.escaped = [] ∨ 2 ≤ res.escaped.length) (h : parseStep s o st res = some st2) :
    st2.pathEscaped = true ↔ st2.path ≠ [] := by
  rcases parseStep_cases s o st res st2 h1 h2 h3 h with ⟨_, e1, rfl⟩ | ⟨_, pp, hpp, rfl⟩
  · simp [encodeRune_ne_nil]
  · simp only [ne_eq, not_true_eq_false, iff_false, Bool.not_eq_true]
    by_cases hf : pp.2 = []
    · simp only [hf, not_true_eq_false, if_false]
      cases he : st.pathEscaped with
      | false => rfl
      | true =>
        exfalso
        rw [he, takePrev_escaped] at hpp
        have h4 := Option.some.inj hpp
        rw [← h4] at hf
        simp only [List.append_eq_nil] at hf
        exact (hP.mp he) hf.1
    · simp [hf]

/-- C5, as amended: at every parameter match of `Parse`, when no escaped character has
entered the literal text buffered before the match (`pathEscaped` is false, which is the
case exactly when no text is carried over from escape matches) and that text ends in an
ASCII character of the delimiter set, the character is removed from the literal and
becomes the token's `Prefix`; when an escaped character has entered the text, or the
text is empty, or it ends in an ASCII character outside the delimiter set, the `Prefix`
is empty and the literal is kept whole.  A text that ends in a byte outside ASCII is left
out.  Here `st` is the loop state reached after the matches `pre`, `rest` is the literal
that is pushed (when not empty) just before the parameter token, and the tokens of the
next state `st2` are the first tokens of the result of `Parse`. -/
theorem C5_prefix_from_unescaped_literal (s : GoString) (options : Option ParseOptions)
    (pre post : List Submatch) (res : Submatch)
    (hm : findAll s = pre ++ res :: post) (he : res.escaped = []) :
    ∃ st st2 prev rest ts,
      parseLoop s (options.getD NewParseOptions) pre ⟨[], 0, 0, [], false⟩ = some st ∧
      parseStep s (options.getD NewParseOptions) st res = some st2 ∧
      st2.tokens =
        (if rest ≠ [] then st.tokens ++ [{ Name := rest, String := true }] else st.tokens) ++
          [paramToken (options.getD NewParseOptions) st.key prev [] res] ∧
      (paramToken (options.getD NewParseOptions) st.key prev [] res).Prefix = prev ∧
      Parse s options = some ts ∧ st2.tokens <+: ts ∧
      (st.pathEscaped = true ↔ st.path ≠ []) ∧
      (st.pathEscaped = true → prev = [] ∧ rest = pendingLiteral s st res) ∧
      (pendingLiteral s st res = [] → prev = [] ∧ rest = []) ∧
      (∀ body c, st.pathEscaped = false → pendingLiteral s st res = body ++ [c] → c < 0x80 →
        (c ∈ (options.getD NewParseOptions).Delimiters → prev = [c] ∧ rest = body) ∧
        (c ∉ (options.getD NewParseOptions).Delimiters → prev = [] ∧ rest = body ++ [c])) := by
  have hw := findAll_wellPlaced s
  rw [hm] at hw
  obtain ⟨st, lo2, hst, hflag, hi2, hn2, hw2⟩ := parseLoop_append
    (fun st => st.pathEscaped = true ↔ st.path ≠ []) s
    (options.getD NewParseOptions) (pathEscaped_iff_step s _) pre (res :: post)
    ⟨[], 0, 0, [], false⟩ 0 hw (Nat.le_refl _) (Nat.zero_le _) (by simp)
  have hw3 := hw2
  simp only [wellPlaced, Bool.and_eq_true, decide_eq_true_eq, Bool.or_eq_true] at hw3
  obtain ⟨⟨⟨hlo, hhi⟩, _⟩, hrest⟩ := hw3
  obtain ⟨pp, hpp, hst2⟩ := parseStep_param s (options.getD NewParseOptions) st res
    (by omega) hhi he
  obtain ⟨st2, hst2t, hidx⟩ := parseStep_total s (options.getD NewParseOptions) st res
    (by omega) hhi (Or.inl he)
  have hX := Option.some.inj (hst2t.symm.trans hst2)
  obtain ⟨st3, ts, hst3, hts, hpre⟩ := parseLoop_tokens_prefix s
    (options.getD NewParseOptions) post st2 (res.offset + res.m.length) hrest (by omega)
    (by omega)
  have hpp2 : takePrev (options.getD NewParseOptions) st.pathEscaped
      (pendingLiteral s st res) = some pp := hpp
  refine ⟨st, st2, pp.1, pp.2, ts, hst, hst2t, by rw [hX], rfl, ?_, hpre, hflag, ?_, ?_, ?_⟩
  · simp only [Parse, hm, parseLoop_append_eq, hst, Option.some_bind, parseLoop, hst2t, hst3,
      hts]
  · intro hesc
    rw [hesc, takePrev_escaped] at hpp2
    rw [← Option.some.inj hpp2]
    exact ⟨rfl, rfl⟩
  · intro hnil
    rcases takePrev_spec _ _ _ _ hpp2 with ⟨_, body, c, h2, _⟩ | ⟨_, h2⟩
    · rw [hnil] at h2
      simp at h2
    · rw [h2, hnil]
      exact ⟨rfl, rfl⟩
  · intro body c hesc hlit hc
    rw [hesc, hlit, takePrev_snoc] at hpp2
    have h := (Option.some.inj hpp2).symm
    constructor
    · intro hmem
      rw [if_pos ((IndexRune_ascii _ c hc).mpr hmem)] at h
      rw [h]
      simp [encodeRune, hc]
    · intro hmem
      rw [if_neg (fun hx => hmem ((IndexRune_ascii _ c hc).mp hx))] at h
      rw [h]
      exact ⟨rfl, rfl⟩

/-- C5, an instance of the amended claim: the parameter match `:foo` of `/a/:foo`. -/
theorem C5_prefix_from_unescaped_literal_witness :
    (findAll (bytes "/a/:foo") =
        [] ++ (⟨3, bytes ":foo", [], bytes "foo", [], [], []⟩ : Submatch) :: [] ∧
      (⟨3, bytes ":foo", [], bytes "foo", [], [], []⟩ : Submatch).escaped = []) ∧
    ∃ st st2 prev rest ts,
      parseLoop (bytes "/a/:foo") NewParseOptions [] ⟨[], 0, 0, [], false⟩ = some st ∧
      parseStep (bytes "/a/:foo") NewParseOptions st
        ⟨3, bytes ":foo", [], bytes "foo", [], [], []⟩ = some st2 ∧
      st2.tokens =
        (if rest ≠ [] then st.tokens ++ [{ Name := rest, String := true }] else st.tokens) ++
          [paramToken NewParseOptions st.key prev []
            ⟨3, bytes ":foo", [], bytes "foo", [], [], []⟩] ∧
      (paramToken NewParseOptions st.key prev []
        ⟨3, bytes ":foo", [], bytes "foo", [], [], []⟩).Prefix = prev ∧
      Parse (bytes "/a/:foo") none = some ts ∧ st2.tokens <+: ts ∧
      (st.pathEscaped = true ↔ st.path ≠ []) ∧
      (st.pathEscaped = true → prev = [] ∧
        rest = pendingLiteral (bytes "/a/:foo") st
          ⟨3, bytes ":foo", [], bytes "foo", [], [], []⟩) ∧
      (pendingLiteral (bytes "/a/:foo") st
          ⟨3, bytes ":foo", [], bytes "foo", [], [], []⟩ = [] → prev = [] ∧ rest = []) ∧
      (∀ body c, st.pathEscaped = false →
        pendingLiteral (bytes "/a/:foo") st
          ⟨3, bytes ":foo", [], bytes "foo", [], [], []⟩ = body ++ [c] → c < 0x80 →
        (c ∈ NewParseOptions.Delimiters → prev = [c] ∧ rest = body) ∧
        (c ∉ NewParseOptions.Delimiters → prev = [] ∧ rest = body ++ [c])) :=
  ⟨⟨by decide, rfl⟩,
    C5_prefix_from_unescaped_literal (bytes "/a/:foo") none []
      [] ⟨3, bytes ":foo", [], bytes "foo", [], [], []⟩ (by decide) rfl⟩

/-- C5 fails on the pattern `\a/:foo`: the literal buffered before `:foo` is `a/`, which
ends in the delimiter `/`, but an escaped character has entered it, so the `/` stays in
the literal token and the `Prefix` of `foo` is empty. -/
theorem C5_escaped_literal_counterexample :
    Parse (bytes "\\a/:foo") none = some
        [{ Name := bytes "a/", String := true },
         { Name := bytes "foo", Prefix := [], Delimiter := bytes "/",
           Pattern := bytes "[^/]+?", String := false }] ∧
      IndexRune NewParseOptions.Delimiters 0x2F > -1 := by
  decide

/-! ### Patterns whose tokens are all literals -/

/-- An escape match is found only in a string that contains a backslash. -/
theorem findAllFrom_escaped_mem (fuel off : Nat) (t : GoString) (r : Submatch)
    (hr : r ∈ findAllFrom fuel off t) (he : r.escaped ≠ []) : 0x5C ∈ t := by
  induction fuel generalizing off t with
  | zero => simp [findAllFrom] at hr
  | succ k ih =>
    cases t with
    | nil => simp [findAllFrom] at hr
    | cons b rest =>
      simp only [findAllFrom] at hr
      split at hr
      · rename_i res hres
        rcases List.mem_cons.mp hr with h | h
        · subst h
          obtain ⟨_, hp, _, hesc⟩ := matchHere_spec hres
          exact hp.subset (hesc he).2.2
        · exact List.mem_of_mem_drop (ih _ _ h)
      · exact List.mem_of_mem_drop (ih _ _ hr)

/-- A match that is not an escape leaves a parameter token in the state of the loop. -/
theorem parseLoop_has_param (s : GoString) (o : ParseOptions) (ms : List Submatch)
    (st : ParseState) (lo : Nat) (hw : wellPlaced s.length lo ms = true) (hi : st.index ≤ lo)
    (hn : st.index ≤ s.length)
    (hex : (∃ r ∈ ms, r.escaped = []) ∨ ∃ t ∈ st.tokens, t.String = false) :
    ∃ st2, parseLoop s o ms st = some st2 ∧ st2.index ≤ s.length ∧
      ∃ t ∈ st2.tokens, t.String = false := by
  induction ms generalizing st lo with
  | nil =>
    rcases hex with ⟨r, hr, _⟩ | h
    · simp at hr
    · exact ⟨st, rfl, hn, h⟩
  | cons r rs ih =>
    simp only [wellPlaced, Bool.and_eq_true, decide_eq_true_eq, Bool.or_eq_true] at hw
    obtain ⟨⟨⟨hlo, hhi⟩, hesc⟩, hrest⟩ := hw
    have h3 : r.escaped = [] ∨ 2 ≤ r.escaped.length := by
      rcases hesc with h | h
      · left; simpa using h
      · right; exact h
    obtain ⟨st1, hst1, hidx⟩ := parseStep_total s o st r (by omega) hhi h3
    have hex1 : (∃ r ∈ rs, r.escaped = []) ∨ ∃ t ∈ st1.tokens, t.String = false := by
      rcases parseStep_cases s o st r st1 (by omega) hhi h3 hst1 with
        ⟨hne, e1, rfl⟩ | ⟨_, pp, _, rfl⟩
      · rcases hex with ⟨x, hx, hxe⟩ | h
        · rcases List.mem_cons.mp hx with rfl | hx
          · exact absurd hxe hne
          · exact Or.inl ⟨x, hx, hxe⟩
        · exact Or.inr h
      · exact Or.inr ⟨_, List.mem_append_right _ (List.mem_singleton_self _), rfl⟩
    obtain ⟨st2, hst2, hn2, ht⟩ := ih st1 (r.offset + r.m.length) hrest (by omega) (by omega) hex1
    exact ⟨st2, by simp [parseLoop, hst1, hst2], hn2, ht⟩

/-- When `Parse` returns literal tokens only, every match in the pattern is an escape. -/
theorem findAll_escaped_of_all_literal (s : GoString) (o : Option ParseOptions)
    (ts : List Token) (hp : Parse s o = some ts) (hall : ∀ t ∈ ts, t.String = true)
    (r : Submatch) (hr : r ∈ findAll s) : r.escaped ≠ [] := by
  intro he
  obtain ⟨st2, hst2, hn2, t, ht, hts⟩ := parseLoop_has_param s (o.getD NewParseOptions)
    (findAll s) ⟨[], 0, 0, [], false⟩ 0 (findAll_wellPlaced s) (Nat.le_refl _) (Nat.zero_le _)
    (Or.inl ⟨r, hr, he⟩)
  rw [Parse_eq_of_loop s o st2 hst2 hn2] at hp
  have hts2 := Option.some.inj hp
  have hmem : t ∈ ts := by
    rw [← hts2]
    split_ifs
    · exact List.mem_append_left _ ht
    · exact ht
  have := hall t hmem
  rw [hts] at this
  exact Bool.noConfusion this

/-- C8 fails on the pattern `\:a`: its `Parse` result is the one literal token `:a`, and
parsing the text `:a` yields the parameter token `a`, a different list. -/
theorem C8_escaped_colon_counterexample :
    Parse (bytes "\\:a") none = some [{ Name := bytes ":a", String := true }] ∧
      (∀ t ∈ [({ Name := bytes ":a", String := true } : Token)], t.String = true) ∧
      Parse (literalText [{ Name := bytes ":a", String := true }]) none =
        some [{ Name := bytes "a", Delimiter := bytes "/", Pattern := bytes "[^/]+?",
                String := false }] ∧
      Parse (literalText [{ Name := bytes ":a", String := true }]) none ≠
        Parse (bytes "\\:a") none := by
  decide

/-! ### Further evaluations -/

/-- A literal that ends in a byte outside ASCII: lines 99 to 101 take the last byte of
the buffered literal, not its last character, so for the pattern `é:foo` with the
delimiter set `©` the byte `0xA9` of `é` is cut off and becomes the prefix `©`. -/
theorem Parse_non_ascii_prefix :
    Parse (bytes "é:foo") (some { Delimiter := bytes "/", Delimiters := bytes "©" }) = some
      [{ Name := [0xC3], String := true },
       { Name := bytes "foo", Prefix := bytes "©", Delimiter := bytes "©",
         Pattern := bytes "[^©]+?", String := false }] := by
  decide

/-- An escaped character outside ASCII: `string(escaped[1])` converts the first byte of
its encoding alone, so the pattern `\é` parses to the literal `Ã`. -/
theorem Parse_escaped_non_ascii :
    Parse (bytes "\\é") none = some [{ Name := bytes "Ã", String := true }] := by
  decide

/-- The count of capturing groups on an expression with a repeated parameter: the
pattern `/:foo*` assembles to an expression with one capturing group, for one token. -/
theorem routeOf_repeat_example :
    routeOf (bytes "/:foo*") NewOptions =
        some (bytes "^(?:/((?:[^/]+?)(?:/(?:[^/]+?))*))?(?:/)?$",
          [{ Name := bytes "foo", Prefix := bytes "/", Delimiter := bytes "/",
             Optional := true, Repeat := true, Pattern := bytes "[^/]+?", String := false }]) ∧
      numSubexp (bytes "^(?:/((?:[^/]+?)(?:/(?:[^/]+?))*))?(?:/)?$") = 1 := by
  decide

/-! ### Where parameter tokens come from -/

/-- The loop of `Parse` over well-placed matches, with a property that every in-range
iteration on a match of the list keeps. -/
theorem parseLoop_induct_mem (P : ParseState → Prop) (s : GoString) (o : ParseOptions)
    (all : List Submatch)
    (hstep : ∀ st res st2, res ∈ all → P st → st.index ≤ res.offset →
      res.offset + res.m.length ≤ s.length →
      (res.escaped = [] ∨ 2 ≤ res.escaped.length) → parseStep s o st res = some st2 → P st2)
    (ms : List Submatch) (hsub : ∀ r ∈ ms, r ∈ all) (st : ParseState) (lo : Nat)
    (hw : wellPlaced s.length lo ms = true) (hi : st.index ≤ lo) (hn : st.index ≤ s.length)
    (hP : P st) :
    ∃ st2, parseLoop s o ms st = some st2 ∧ P st2 ∧ st2.index ≤ s.length := by
  induction ms generalizing st lo with
  | nil => exact ⟨st, rfl, hP, hn⟩
  | cons r rs ih =>
    simp only [wellPlaced, Bool.and_eq_true, decide_eq_true_eq, Bool.or_eq_true] at hw
    obtain ⟨⟨⟨hlo, hhi⟩, hesc⟩, hrest⟩ := hw
    have h3 : r.escaped = [] ∨ 2 ≤ r.escaped.length := by
      rcases hesc with h | h
      · left; simpa using h
      · right; exact h
    obtain ⟨st1, hst1, hidx⟩ := parseStep_total s o st r (by omega) hhi h3
    have hP1 := hstep st r st1 (hsub r (List.mem_cons_self _ _)) hP (by omega) hhi h3 hst1
    obtain ⟨st2, hst2, hP2, hn2⟩ := ih (fun x hx => hsub x (List.mem_cons_of_mem _ hx)) st1
      (r.offset + r.m.length) hrest (by omega) (by omega) hP1
    exact ⟨st2, by simp [parseLoop, hst1, hst2], hP2, hn2⟩

/-- Every parameter token that `Parse` returns is the token built by lines 111 to 144
from a match of `PATH_REGEXP` that is not an escape, with an empty `next` and with a
`prev` that is empty or the character of a byte found in the delimiter set. -/
theorem Parse_param_tokens (s : GoString) (o : Option ParseOptions) :
    ∃ ts, Parse s o = some ts ∧
      ∀ t ∈ ts, t.String = false →
        ∃ res ∈ findAll s, ∃ key prev,
          res.escaped = [] ∧
          (prev = [] ∨ ∃ c, prev = encodeRune c ∧
            IndexRune (o.getD NewParseOptions).Delimiters c > -1) ∧
          t = paramToken (o.getD NewParseOptions) key prev [] res := by
  obtain ⟨st, hst, hP, hn⟩ := parseLoop_induct_mem
    (fun st => ∀ t ∈ st.tokens, t.String = false →
      ∃ res ∈ findAll s, ∃ key prev,
        res.escaped = [] ∧
        (prev = [] ∨ ∃ c, prev = encodeRune c ∧
          IndexRune (o.getD NewParseOptions).Delimiters c > -1) ∧
        t = paramToken (o.getD NewParseOptions) key prev [] res)
    s (o.getD NewParseOptions) (findAll s)
    (by
      intro st res st2 hmem hP h1 h2 h3 h
      rcases parseStep_cases s _ st res st2 h1 h2 h3 h with ⟨_, e1, rfl⟩ | ⟨he, pp, hpp, rfl⟩
      · exact hP
      · intro t ht hs
        simp only [List.mem_append, List.mem_singleton] at ht
        rcases ht with ht | rfl
        · split_ifs at ht
          · rcases List.mem_append.mp ht with ht | ht
            · exact hP t ht hs
            · rw [List.mem_singleton] at ht
              subst ht
              exact absurd hs (by simp)
          · exact hP t ht hs
        · refine ⟨res, hmem, st.key, pp.1, he, ?_, rfl⟩
          rcases takePrev_spec _ _ _ _ hpp with ⟨_, body, c, _, hc, h4⟩ | ⟨_, h4⟩
          · exact Or.inr ⟨c, by rw [h4], hc⟩
          · exact Or.inl (by rw [h4]))
    (findAll s) (fun _ h => h) ⟨[], 0, 0, [], false⟩ 0 (findAll_wellPlaced s) (Nat.le_refl _)
    (Nat.zero_le _) (by intro t ht; simp at ht)
  refine ⟨_, Parse_eq_of_loop s o st hst hn, ?_⟩
  intro t ht hs
  split_ifs at ht
  · rcases List.mem_append.mp ht with ht | ht
    · exact hP t ht hs
    · rw [List.mem_singleton] at ht
      subst ht
      exact absurd hs (by simp)
  · exact hP t ht hs

/-! ### The shape of a parameter match -/

theorem modifierAt_cases (s : GoString) :
    modifierAt s = [] ∨ modifierAt s = bytes "+" ∨ modifierAt s = bytes "*" ∨
      modifierAt s = bytes "?" := by
  have e1 : bytes "+" = [0x2B] := by decide
  have e2 : bytes "*" = [0x2A] := by decide
  have e3 : bytes "?" = [0x3F] := by decide
  rw [e1, e2, e3]
  cases s with
  | nil => simp [modifierAt]
  | cons b rest =>
    simp only [modifierAt]
    split_ifs with h
    · rcases h with h | h | h <;> simp [h]
    · simp

/-- Every match that the scan reports is a match of `PATH_REGEXP` at the head of some
final part of the string, recorded at its own offset. -/
theorem findAllFrom_mem (fuel off : Nat) (t : GoString) (r : Submatch)
    (hr : r ∈ findAllFrom fuel off t) :
    ∃ t2, t2 <:+ t ∧ matchHere r.offset t2 = some r := by
  induction fuel generalizing off t with
  | zero => simp [findAllFrom] at hr
  | succ k ih =>
    cases t with
    | nil => simp [findAllFrom] at hr
    | cons b rest =>
      simp only [findAllFrom] at hr
      split at hr
      · rename_i res hres
        rcases List.mem_cons.mp hr with h | h
        · subst h
          obtain ⟨ho, _⟩ := matchHere_spec hres
          rw [ho]
          exact ⟨_, List.suffix_refl _, hres⟩
        · obtain ⟨t2, hs, hm⟩ := ih _ _ h
          exact ⟨t2, hs.trans (List.drop_suffix _ _), hm⟩
      · obtain ⟨t2, hs, hm⟩ := ih _ _ hr
        exact ⟨t2, hs.trans (List.drop_suffix _ _), hm⟩

/-- The parts of a match that is not an escape: the parameter proper, `core`, which is a
colon and a name of word characters with or without a parenthesised pattern, or a
parenthesised pattern alone, and then the modifier, which is the byte that follows `core`
in the string when that byte is `+`, `*` or `?`, and is empty otherwise. -/
theorem matchHere_param {off : Nat} {t : GoString} {r : Submatch}
    (h : matchHere off t = some r) (he : r.escaped = []) :
    ∃ core after, t = core ++ after ∧ r.m = core ++ r.modifier ∧
      r.modifier = modifierAt after ∧
      ((r.group = [] ∧ r.name ≠ [] ∧ (∀ b ∈ r.name, isWord b = true) ∧
          ((r.capture = [] ∧ core = 0x3A :: r.name) ∨
            (r.capture ≠ [] ∧ core = 0x3A :: r.name ++ 0x28 :: r.capture ++ [0x29]))) ∨
        (r.name = [] ∧ r.capture = [] ∧ r.group ≠ [] ∧
          core = 0x28 :: r.group ++ [0x29])) := by
  cases t with
  | nil => simp [matchHere] at h
  | cons b rest =>
    by_cases h1 : b = 0x5C
    · cases rest with
      | nil => simp [matchHere, h1] at h
      | cons c r2 =>
        by_cases h2 : (decodeRune (c :: r2)).1 = 0x0A
        · simp [matchHere, h1, h2] at h
        · simp only [matchHere, if_pos h1, if_neg h2, Option.some.injEq] at h
          subst h
          simp at he
    · by_cases h2 : b = 0x3A
      · simp only [matchHere, if_neg h1, if_pos h2] at h
        by_cases hn : List.takeWhile isWord rest = []
        · simp [hn] at h
        · simp only [if_neg hn] at h
          have hsplit := takeWhile_append_drop isWord rest
          have hword : ∀ x ∈ List.takeWhile isWord rest, isWord x = true :=
            fun x hx => List.mem_takeWhile_imp hx
          generalize List.takeWhile isWord rest = name at h hn hsplit hword
          generalize List.drop name.length rest = r1 at h hsplit
          subst hsplit h2
          split at h
          · rename_i capture r3 hc
            simp only [Option.some.injEq] at h
            subst h
            obtain ⟨hr1, hcne⟩ := captureAt_eq_some hc
            refine ⟨0x3A :: name ++ 0x28 :: capture ++ [0x29], r3, ?_, by simp, rfl,
              Or.inl ⟨rfl, hn, hword, Or.inr ⟨hcne, rfl⟩⟩⟩
            rw [hr1]; simp
          · simp only [Option.some.injEq] at h
            subst h
            exact ⟨0x3A :: name, r1, by simp, by simp, rfl,
              Or.inl ⟨rfl, hn, hword, Or.inl ⟨rfl, rfl⟩⟩⟩
      · by_cases h3 : b = 0x28
        · simp only [matchHere, if_neg h1, if_neg h2, if_pos h3] at h
          split at h
          · rename_i group r3 hc
            simp only [Option.some.injEq] at h
            subst h
            obtain ⟨hr1, hgne⟩ := captureAt_eq_some hc
            refine ⟨0x28 :: group ++ [0x29], r3, ?_, by simp [h3], rfl,
              Or.inr ⟨rfl, rfl, hgne, rfl⟩⟩
            rw [hr1]; simp
          · simp at h
        · simp [matchHere, h1, h2, h3] at h

/-- The shape of every match of `findAll` that is not an escape. -/
theorem findAll_param (s : GoString) (r : Submatch) (hr : r ∈ findAll s)
    (he : r.escaped = []) :
    ∃ t2 core after, t2 <:+ s ∧ t2 = core ++ after ∧ r.m = core ++ r.modifier ∧
      r.modifier = modifierAt after ∧
      ((r.group = [] ∧ r.name ≠ [] ∧ (∀ b ∈ r.name, isWord b = true) ∧
          ((r.capture = [] ∧ core = 0x3A :: r.name) ∨
            (r.capture ≠ [] ∧ core = 0x3A :: r.name ++ 0x28 :: r.capture ++ [0x29]))) ∨
        (r.name = [] ∧ r.capture = [] ∧ r.group ≠ [] ∧
          core = 0x28 :: r.group ++ [0x29])) := by
  obtain ⟨t2, hs, hm⟩ := findAllFrom_mem _ _ _ r hr
  obtain ⟨core, after, h1, h2, h3, h4⟩ := matchHere_param hm he
  exact ⟨t2, core, after, hs, h1, h2, h3, h4⟩

/-! ### Fields of the parameter tokens -/

theorem paramToken_flags (o : ParseOptions) (key : Nat) (prev next : GoString) (res : Submatch) :
    ((paramToken o key prev next res).Optional =
        decide (res.modifier = bytes "?" ∨ res.modifier = bytes "*")) ∧
      ((paramToken o key prev next res).Repeat =
        decide (res.modifier = bytes "+" ∨ res.modifier = bytes "*")) :=
  ⟨rfl, rfl⟩

/-- C14: for every parameter token that `Parse` returns, `Prefix` is empty or is a single
character that is found in `options.Delimiters`, and `Delimiter` is `Prefix` when `Prefix`
is not empty and `options.Delimiter` otherwise. -/
theorem C14_prefix_and_delimiter (s : GoString) (options : Option ParseOptions) :
    ∃ ts, Parse s options = some ts ∧
      ∀ t ∈ ts, t.String = false →
        (t.Prefix = [] ∨ ∃ c, t.Prefix = encodeRune c ∧
          IndexRune (options.getD NewParseOptions).Delimiters c > -1) ∧
        t.Delimiter =
          (if t.Prefix ≠ [] then t.Prefix else (options.getD NewParseOptions).Delimiter) := by
  obtain ⟨ts, hts, h⟩ := Parse_param_tokens s options
  refine ⟨ts, hts, ?_⟩
  intro t ht hs
  obtain ⟨res, _, key, prev, _, hprev, rfl⟩ := h t ht hs
  exact ⟨hprev, rfl⟩

theorem escapeGroup_ne_nil (p : GoString) (h : p ≠ []) : escapeGroup p ≠ [] := by
  cases p with
  | nil => exact absurd rfl h
  | cons b rest =>
    simp only [escapeGroup, List.flatMap_cons]
    split_ifs <;> simp

theorem paramToken_Pattern_ne_nil (o : ParseOptions) (key : Nat) (prev next : GoString)
    (res : Submatch) : (paramToken o key prev next res).Pattern ≠ [] := by
  have key : ∀ pattern delimiter : GoString,
      (if pattern.length > 0 then escapeGroup pattern
        else bytes "[^" ++ escapeString delimiter ++ bytes "]+?") ≠ [] := by
    intro p d
    split_ifs with h
    · exact escapeGroup_ne_nil _ (List.length_pos.mp h)
    · have e : bytes "[^" = [0x5B, 0x5E] := by decide
      rw [e]; simp
  exact key _ _

/-- C15: for every pattern and all parse options, an empty `Delimiter` included, every
parameter token that `Parse` returns has a non-empty `Pattern`. -/
theorem C15_pattern_is_not_empty (s : GoString) (options : Option ParseOptions) :
    ∃ ts, Parse s options = some ts ∧ ∀ t ∈ ts, t.String = false → t.Pattern ≠ [] := by
  obtain ⟨ts, hts, h⟩ := Parse_param_tokens s options
  refine ⟨ts, hts, ?_⟩
  intro t ht hs
  obtain ⟨res, _, key, prev, _, _, rfl⟩ := h t ht hs
  exact paramToken_Pattern_ne_nil _ _ _ _ _

theorem wellPlaced_mem {n lo : Nat} {ms : List Submatch} (hw : wellPlaced n lo ms = true)
    (r : Submatch) (hr : r ∈ ms) : r.offset + r.m.length ≤ n := by
  induction ms generalizing lo with
  | nil => simp at hr
  | cons x xs ih =>
    simp only [wellPlaced, Bool.and_eq_true, decide_eq_true_eq] at hw
    rcases List.mem_cons.mp hr with rfl | h
    · exact hw.1.1.2
    · exact ih hw.2 h

/-- C18: for every input string and all parse options, the guard `index > len(str)` of
line 89 is false at every match, so `Parse` never reads the character after a match and
never stops on an index out of range, and every token it returns has `Partial` false. -/
theorem C18_lookahead_is_never_read (s : GoString) (options : Option ParseOptions) :
    (∀ res ∈ findAll s, ¬ (res.offset + res.m.length > s.length)) ∧
      ∃ ts, Parse s options = some ts ∧ ∀ t ∈ ts, t.Partial = false := by
  constructor
  · intro res hres
    have := wellPlaced_mem (findAll_wellPlaced s) res hres
    omega
  · obtain ⟨ts, hts, h⟩ := Parse_param_tokens s options
    refine ⟨ts, hts, ?_⟩
    intro t ht
    by_cases hs : t.String = false
    · obtain ⟨res, _, key, prev, _, _, rfl⟩ := h t ht hs
      simp [paramToken]
    · obtain ⟨st, hPst, _, _, hp⟩ := Parse_induct
        (fun st => ∀ t ∈ st.tokens, t.String = true → t.Partial = false) s options
        (by
          intro st res st2 hP h1 h2 h3 h
          rcases parseStep_cases s _ st res st2 h1 h2 h3 h with ⟨_, e1, rfl⟩ | ⟨_, pp, _, rfl⟩
          · exact hP
          · intro t ht hs
            simp only [List.mem_append, List.mem_singleton] at ht
            rcases ht with ht | rfl
            · split_ifs at ht
              · rcases List.mem_append.mp ht with ht | ht
                · exact hP t ht hs
                · rw [List.mem_singleton] at ht
                  subst ht
                  rfl
              · exact hP t ht hs
            · exact absurd hs (by simp [paramToken_String]))
        (by intro t ht; simp at ht)
      rw [hts] at hp
      have hts2 := Option.some.inj hp
      rw [hts2] at ht
      simp only [Bool.not_eq_false] at hs
      split_ifs at ht
      · rcases List.mem_append.mp ht with ht | ht
        · exact hPst t ht hs
        · rw [List.mem_singleton] at ht
          subst ht
          rfl
      · exact hPst t ht hs

/-- C19: for every input string and all options, every literal token that `Parse`
returns, the final token of trailing text included, has a non-empty text, so that the
index expression `token.Name[len(token.Name)-1]` of `PathToRegexp` is in range, and
`PathToRegexp` assembles its expression without an index out of range; the one fault
left to it is the selector of line 179 on a `nil` embedded pointer. -/
theorem C19_literal_tokens_are_not_empty (s : GoString) (parseOptions : Option ParseOptions)
    (options : Option Options) :
    (∃ ts, Parse s parseOptions = some ts ∧
        ∀ t ∈ ts, t.String = true →
          t.Name ≠ [] ∧ ∃ c, byteAt t.Name (t.Name.length - 1) = some c) ∧
      (routeOf s (options.getD NewOptions) = none ↔
        (options.getD NewOptions).ParseOptions = none) := by
  constructor
  · obtain ⟨ts, hts, hlit⟩ := Parse_literalsNonEmpty s parseOptions
    refine ⟨ts, hts, ?_⟩
    intro t ht hs
    simp only [literalsNonEmpty, List.all_eq_true, Bool.or_eq_true, Bool.not_eq_true',
      decide_eq_true_eq] at hlit
    have hne : t.Name ≠ [] := by
      rcases hlit t ht with h | h
      · rw [hs] at h; exact Bool.noConfusion h
      · exact h
    refine ⟨hne, ?_⟩
    have hlt : t.Name.length - 1 < t.Name.length := by
      have := List.length_pos.mpr hne
      omega
    exact ⟨t.Name[t.Name.length - 1], by
      simp only [byteAt, List.get?_eq_getElem?, List.getElem?_eq_getElem hlt]⟩
  · constructor
    · intro hnone
      cases hpo : (options.getD NewOptions).ParseOptions with
      | none => rfl
      | some po =>
        obtain ⟨tokens, route, _, h⟩ := routeOf_keys s (options.getD NewOptions) po hpo
        rw [h] at hnone
        exact Option.noConfusion hnone
    · exact routeOf_nil s _

/-! ### Inline patterns -/

/-- Decoding the first rune of a non-empty string is not affected by what follows the
string when that starts with an ASCII byte. -/
theorem decodeRune_append (p q : GoString) (hp : p ≠ []) (hq : ∀ b ∈ q.head?, b < 0x80) :
    decodeRune (p ++ q) = decodeRune p := by
  cases q with
  | nil => simp
  | cons c r =>
    have hc : c < 0x80 := hq c (by simp)
    have hnc : isCont c = false := by
      simp only [isCont, Bool.and_eq_false_imp, decide_eq_true_eq, decide_eq_false_iff_not]
      omega
    have hlo : ∀ a : Nat, ¬ ((if a = 0xE0 then 0xA0 else 0x80) ≤ c) := by
      intro a; split_ifs <;> omega
    have hlo4 : ∀ a : Nat, ¬ ((if a = 0xF0 then 0x90 else 0x80) ≤ c) := by
      intro a; split_ifs <;> omega
    obtain ⟨a, p2, rfl⟩ := List.exists_cons_of_ne_nil hp
    rw [List.cons_append]
    by_cases h1 : a < 0x80
    · simp [decodeRune, h1]
    by_cases h2 : 0xC2 ≤ a ∧ a ≤ 0xDF
    · cases p2 with
      | nil => simp [decodeRune, h1, h2, hnc]
      | cons a1 p3 => simp [decodeRune, h1, h2]
    by_cases h3 : 0xE0 ≤ a ∧ a ≤ 0xEF
    · match p2 with
      | [] =>
        cases r with
        | nil => simp [decodeRune, h1, h2, h3]
        | cons r1 r2 =>
          simp only [decodeRune, if_neg h1, if_neg h2, if_pos h3, List.nil_append]
          rw [if_neg (fun h => hlo a h.1)]
      | [a1] =>
        simp only [decodeRune, if_neg h1, if_neg h2, if_pos h3, List.cons_append,
          List.nil_append, hnc]
        simp
      | a1 :: a2 :: p4 =>
        simp only [decodeRune, List.cons_append, if_neg h1, if_neg h2, if_pos h3]
    by_cases h4 : 0xF0 ≤ a ∧ a ≤ 0xF4
    · match p2 with
      | [] =>
        match r with
        | [] => simp [decodeRune, h1, h2, h3, h4]
        | [_] => simp [decodeRune, h1, h2, h3, h4]
        | r1 :: r2 :: r3 =>
          simp only [decodeRune, if_neg h1, if_neg h2, if_neg h3, if_pos h4, List.nil_append]
          rw [if_neg (fun h => hlo4 a h.1)]
      | [a1] =>
        cases r with
        | nil => simp [decodeRune, h1, h2, h3, h4]
        | cons r1 r2 =>
          simp only [decodeRune, if_neg h1, if_neg h2, if_neg h3, if_pos h4, List.cons_append,
            List.nil_append, hnc]
          simp
      | [a1, a2] =>
        simp only [decodeRune, if_neg h1, if_neg h2, if_neg h3, if_pos h4, List.cons_append,
          List.nil_append, hnc]
        simp
      | a1 :: a2 :: a3 :: p5 =>
        simp only [decodeRune, List.cons_append, if_neg h1, if_neg h2, if_neg h3, if_pos h4]
    · simp [decodeRune, h1, h2, h3, h4]

theorem groupLen_backslash (fuel : Nat) (x : GoString) (hx : x ≠ []) :
    groupLen (fuel + 1) (0x5C :: x) =
      if (decodeRune x).1 = 0x0A then 0
      else 1 + (decodeRune x).2 + groupLen fuel (x.drop (decodeRune x).2) := by
  cases x with
  | nil => exact absurd rfl hx
  | cons c r => simp [groupLen]

theorem groupLen_other (fuel b : Nat) (x : GoString) (h1 : b ≠ 0x5C)
    (h2 : ¬ (b = 0x28 ∨ b = 0x29)) :
    groupLen (fuel + 1) (b :: x) =
      (decodeRune (b :: x)).2 + groupLen fuel ((b :: x).drop (decodeRune (b :: x)).2) := by
  simp only [groupLen, if_neg h1, if_neg h2]

/-- A run of items that covers the whole of `p` is also the longest run at the head of
`p` followed by a closing parenthesis. -/
theorem groupLen_append (f1 f2 : Nat) (p rest : GoString) (hf1 : p.length ≤ f1)
    (hf2 : p.length ≤ f2) (h : groupLen f1 p = p.length) :
    groupLen f2 (p ++ 0x29 :: rest) = p.length := by
  induction f1 generalizing f2 p with
  | zero =>
    have : p = [] := List.length_eq_zero.mp (Nat.le_zero.mp hf1)
    subst this
    cases f2 <;> simp [groupLen]
  | succ k ih =>
    cases p with
    | nil => cases f2 <;> simp [groupLen]
    | cons b p2 =>
      cases f2 with
      | zero => simp at hf2
      | succ k2 =>
        simp only [List.length_cons] at hf1 hf2
        by_cases h1 : b = 0x5C
        · subst h1
          cases p2 with
          | nil => simp [groupLen] at h
          | cons c r =>
            simp only [List.length_cons] at hf1 hf2
            have hd := decodeRune_append (c :: r) (0x29 :: rest) (by simp) (by simp)
            have hw := decodeRune_width_le c r
            have hw1 := decodeRune_width_pos c r
            rw [groupLen_backslash k _ (by simp)] at h
            by_cases h2 : (decodeRune (c :: r)).1 = 0x0A
            · rw [if_pos h2] at h
              simp at h
            · rw [if_neg h2] at h
              have hle := groupLen_le k ((c :: r).drop (decodeRune (c :: r)).2)
              simp only [List.length_drop, List.length_cons] at h hle
              rw [show (0x5C :: c :: r) ++ 0x29 :: rest = 0x5C :: ((c :: r) ++ 0x29 :: rest)
                from rfl, groupLen_backslash k2 _ (by simp), hd, if_neg h2,
                List.drop_append_of_le_length (by simpa using hw)]
              rw [ih k2 _ (by simp only [List.length_drop, List.length_cons]; omega)
                (by simp only [List.length_drop, List.length_cons]; omega)
                (by simp only [List.length_drop, List.length_cons]; omega)]
              simp only [List.length_drop, List.length_cons]
              omega
        · by_cases h2 : b = 0x28 ∨ b = 0x29
          · simp [groupLen, h1, h2] at h
          · have hd := decodeRune_append (b :: p2) (0x29 :: rest) (by simp) (by simp)
            have hw := decodeRune_width_le b p2
            have hw1 := decodeRune_width_pos b p2
            rw [groupLen_other k b p2 h1 h2] at h
            have hle := groupLen_le k ((b :: p2).drop (decodeRune (b :: p2)).2)
            simp only [List.length_drop, List.length_cons] at h hle
            rw [show (b :: p2) ++ 0x29 :: rest = b :: (p2 ++ 0x29 :: rest) from rfl,
              groupLen_other k2 b _ h1 h2,
              show b :: (p2 ++ 0x29 :: rest) = (b :: p2) ++ 0x29 :: rest from rfl, hd,
              List.drop_append_of_le_length (by simpa using hw)]
            rw [ih k2 _ (by simp only [List.length_drop, List.length_cons]; omega)
              (by simp only [List.length_drop, List.length_cons]; omega)
              (by simp only [List.length_drop, List.length_cons]; omega)]
            simp only [List.length_drop, List.length_cons]
            omega

/-- The grammar captures an inline pattern between parentheses whole. -/
theorem captureAt_inline (p rest : GoString) (hp : isInline p = true) :
    captureAt (0x28 :: (p ++ 0x29 :: rest)) = some (p, rest) := by
  simp only [isInline, Bool.and_eq_true, decide_eq_true_eq] at hp
  obtain ⟨hne, hg⟩ := hp
  have hlen := groupLen_append p.length (p ++ 0x29 :: rest).length p rest (Nat.le_refl _)
    (by simp) hg
  have hpos : p.length ≠ 0 := fun h => hne (List.length_eq_zero.mp h)
  simp only [captureAt, if_true, hlen, if_neg hpos, List.drop_left, List.take_left]

theorem takeWhile_word_append (w rest : GoString) (hw : ∀ b ∈ w, isWord b = true) :
    List.takeWhile isWord (w ++ rest) = w ++ List.takeWhile isWord rest := by
  induction w with
  | nil => simp
  | cons a w2 ih =>
    have ha : isWord a = true := hw a (by simp)
    simp only [List.cons_append, List.takeWhile_cons, ha, if_true]
    rw [ih (fun b hb => hw b (List.mem_cons_of_mem _ hb))]

/-- A match of a named parameter: a colon, then all the word characters that follow,
then what `captureAt` and `modifierAt` find. -/
theorem matchHere_named (off : Nat) (w rest : GoString) (hw0 : w ≠ [])
    (hw : ∀ b ∈ w, isWord b = true) (hr : List.takeWhile isWord rest = []) :
    matchHere off (0x3A :: (w ++ rest)) =
      match captureAt rest with
      | some (capture, r2) =>
        some ⟨off, 0x3A :: w ++ 0x28 :: capture ++ 0x29 :: modifierAt r2, [], w, capture, [],
          modifierAt r2⟩
      | none => some ⟨off, 0x3A :: w ++ modifierAt rest, [], w, [], [], modifierAt rest⟩ := by
  have ht : List.takeWhile isWord (w ++ rest) = w := by
    rw [takeWhile_word_append w rest hw, hr, List.append_nil]
  cases hc : captureAt rest with
  | none => simp [matchHere, ht, hw0, hc]
  | some x =>
    obtain ⟨capture, r2⟩ := x
    simp [matchHere, ht, hw0, hc]

/-- The one match in a pattern made of a colon and a name of word characters. -/
theorem findAll_named (w : GoString) (hw0 : w ≠ []) (hw : ∀ b ∈ w, isWord b = true) :
    findAll (0x3A :: w) = [⟨0, 0x3A :: w, [], w, [], [], []⟩] := by
  have hm := matchHere_named 0 w [] hw0 hw rfl
  simp only [List.append_nil, captureAt, modifierAt] at hm
  simp only [findAll, List.length_cons, findAllFrom, hm, List.drop_succ_cons,
    List.drop_length, findAllFrom_nil]

/-- The one match in a pattern made of a colon, a name of word characters and an inline
pattern between parentheses. -/
theorem findAll_named_inline (w p : GoString) (hw0 : w ≠ []) (hw : ∀ b ∈ w, isWord b = true)
    (hp : isInline p = true) :
    findAll (0x3A :: (w ++ 0x28 :: (p ++ [0x29]))) =
      [⟨0, 0x3A :: w ++ 0x28 :: p ++ [0x29], [], w, p, [], []⟩] := by
  have hm := matchHere_named 0 w (0x28 :: (p ++ [0x29])) hw0 hw
    (by simp [List.takeWhile_cons, isWord])
  rw [captureAt_inline p [] hp] at hm
  simp only [modifierAt] at hm
  rw [show (0x3A :: w ++ 0x28 :: p ++ 0x29 :: ([] : GoString)) =
    0x3A :: (w ++ 0x28 :: (p ++ [0x29])) from by simp] at hm
  rw [show (0x3A :: w ++ 0x28 :: p ++ [0x29]) = 0x3A :: (w ++ 0x28 :: (p ++ [0x29])) from by simp]
  simp only [findAll, List.length_cons, findAllFrom, hm, List.drop_succ_cons]
  rw [List.drop_length, findAllFrom_nil]

/-- The result of `Parse` on a pattern whose one match is a parameter match that covers
the whole pattern: the one parameter token built from the match. -/
theorem Parse_single_param (s : GoString) (o : Option ParseOptions) (res : Submatch)
    (hf : findAll s = [res]) (ho : res.offset = 0) (hm : res.m.length = s.length)
    (he : res.escaped = []) :
    Parse s o = some [paramToken (o.getD NewParseOptions) 0 [] [] res] := by
  obtain ⟨pp, hpp, hstep⟩ := parseStep_param s (o.getD NewParseOptions) ⟨[], 0, 0, [], false⟩
    res (Nat.zero_le _) (by omega) he
  simp only [ho, List.take_zero, List.drop_nil, List.append_nil, takePrev_nil,
    Option.some.injEq] at hpp
  subst hpp
  simp only [Parse, hf, parseLoop, hstep, Option.some_bind, parseFinish, ho, hm]
  simp

/-- C12: for every non-empty identifier `w` of word characters and the default options,
`Parse` of a colon followed by `w` returns exactly one token, a parameter token with
`Name` `w`, `Pattern` `[^/]+?`, `Optional` false and `Repeat` false; and for every
pattern and all options, a parameter token built from a match without an inline pattern
has the `Pattern` `[^` followed by `escapeString(token.Delimiter)` and `]+?`. -/
theorem C12_named_parameter_default_pattern (w : GoString) (options : Option ParseOptions)
    (hw0 : w ≠ []) (hw : ∀ b ∈ w, isWord b = true)
    (hd : options.getD NewParseOptions = NewParseOptions) :
    Parse (bytes ":" ++ w) options = some
        [{ Name := w, Prefix := [], Delimiter := bytes "/", Optional := false, Repeat := false,
           Partial := false, Pattern := bytes "[^/]+?", String := false }] ∧
      ∀ (s : GoString) (o : Option ParseOptions),
        ∃ ts, Parse s o = some ts ∧
          ∀ t ∈ ts, t.String = false →
            ∃ res ∈ findAll s, ∃ key prev,
              t = paramToken (o.getD NewParseOptions) key prev [] res ∧
              (res.capture = [] → res.group = [] →
                t.Pattern = bytes "[^" ++ escapeString t.Delimiter ++ bytes "]+?") := by
  constructor
  · have e : bytes ":" ++ w = 0x3A :: w := by
      rw [show bytes ":" = [0x3A] from by decide]; rfl
    rw [e, Parse_single_param (0x3A :: w) options _ (findAll_named w hw0 hw) rfl rfl rfl, hd]
    have hne : ¬ (w = []) := hw0
    simp only [paramToken, hne, if_false]
    have e2 : (bytes "[^" ++ escapeString NewParseOptions.Delimiter ++ bytes "]+?") =
        bytes "[^/]+?" := by decide
    simp [e2]
    decide
  · intro s o
    obtain ⟨ts, hts, h⟩ := Parse_param_tokens s o
    refine ⟨ts, hts, ?_⟩
    intro t ht hs
    obtain ⟨res, hres, key, prev, _, _, rfl⟩ := h t ht hs
    refine ⟨res, hres, key, prev, rfl, ?_⟩
    intro hc hg
    simp [paramToken, hc, hg]

/-- C12, an instance: the pattern `:id`. -/
theorem C12_named_parameter_default_pattern_witness :
    (bytes "id" ≠ [] ∧ (∀ b ∈ bytes "id", isWord b = true) ∧
      (none : Option ParseOptions).getD NewParseOptions = NewParseOptions) ∧
    Parse (bytes ":id") none = some
      [{ Name := bytes "id", Prefix := [], Delimiter := bytes "/", Optional := false,
         Repeat := false, Partial := false, Pattern := bytes "[^/]+?", String := false }] :=
  ⟨⟨by decide, by decide, rfl⟩,
    (C12_named_parameter_default_pattern (bytes "id") none (by decide) (by decide) rfl).1⟩

/-- C13: for every identifier `w` and every inline pattern `p` that the grammar accepts,
`Parse` of a colon, `w` and `p` between parentheses returns one parameter token, whose
`Pattern` is `p` with a backslash put before each of the characters `=`, `!`, `:`, `$`,
`/`, `(` and `)`. -/
theorem C13_inline_pattern_is_group_escaped (w p : GoString) (options : Option ParseOptions)
    (hw0 : w ≠ []) (hw : ∀ b ∈ w, isWord b = true) (hp : isInline p = true) :
    Parse (bytes ":" ++ w ++ bytes "(" ++ p ++ bytes ")") options = some
        [{ Name := w, Prefix := [], Delimiter := (options.getD NewParseOptions).Delimiter,
           Optional := false, Repeat := false, Partial := false,
           Pattern := p.flatMap fun b => if b ∈ bytes "=!:$/()" then [0x5C, b] else [b],
           String := false }] := by
  have e : bytes ":" ++ w ++ bytes "(" ++ p ++ bytes ")" =
      0x3A :: (w ++ 0x28 :: (p ++ [0x29])) := by
    rw [show bytes ":" = [0x3A] from by decide, show bytes "(" = [0x28] from by decide,
      show bytes ")" = [0x29] from by decide]
    simp
  have hpne : p ≠ [] := by
    simp only [isInline, Bool.and_eq_true, decide_eq_true_eq] at hp
    exact hp.1
  have hlen : 0 < p.length := List.length_pos.mpr hpne
  rw [e, Parse_single_param _ options _ (findAll_named_inline w p hw0 hw hp) rfl (by simp) rfl]
  have hne : ¬ (w = []) := hw0
  have e3 : bytes "=!:$/()" = [0x3D, 0x21, 0x3A, 0x24, 0x2F, 0x28, 0x29] := by decide
  simp only [paramToken, hne, if_false, hpne, ne_eq, not_false_eq_true, if_true, hlen,
    gt_iff_lt, escapeGroup, isGroupChar, e3]
  simp
  decide

/-- C13, an instance: the pattern `:id(\d+)`, whose token has the `Pattern` `\d+`. -/
theorem C13_inline_pattern_is_group_escaped_witness :
    (bytes "id" ≠ [] ∧ (∀ b ∈ bytes "id", isWord b = true) ∧
      isInline (bytes "\\d+") = true) ∧
    Parse (bytes ":id(\\d+)") none = some
      [{ Name := bytes "id", Prefix := [], Delimiter := bytes "/", Optional := false,
         Repeat := false, Partial := false, Pattern := bytes "\\d+", String := false }] :=
  ⟨⟨by decide, by decide, by decide⟩,
    C13_inline_pattern_is_group_escaped (bytes "id") (bytes "\\d+") none (by decide)
      (by decide) (by decide)⟩

/-! ### Modifiers -/

/-- The one match in a pattern made of a colon, a name of word characters and one
modifier character. -/
theorem findAll_named_modifier (w : GoString) (m : Nat) (hw0 : w ≠ [])
    (hw : ∀ b ∈ w, isWord b = true) (hm : m = 0x3F ∨ m = 0x2A ∨ m = 0x2B) :
    findAll (0x3A :: (w ++ [m])) = [⟨0, 0x3A :: w ++ [m], [], w, [], [], [m]⟩] := by
  have hnw : isWord m = false := by
    rcases hm with rfl | rfl | rfl <;> decide
  have h28 : ¬ m = 0x28 := by
    rcases hm with rfl | rfl | rfl <;> decide
  have hmod : modifierAt [m] = [m] := by
    rcases hm with rfl | rfl | rfl <;> decide
  have hx := matchHere_named 0 w [m] hw0 hw (by simp [List.takeWhile_cons, hnw])
  simp only [captureAt, if_neg h28, hmod] at hx
  simp only [findAll, List.length_cons, findAllFrom, hx]
  rw [show (0x3A :: (w ++ [m])).drop
      (0x3A :: w ++ [m]).length = [] from by simp]
  simp [findAllFrom_nil]

/-- C11: for every parameter token that `Parse` returns, the character that follows the
parameter in the pattern determines the flags.  The pattern is `before`, then the
parameter proper `core` (a colon and the token's name, alone for a token with the default
pattern or followed by the token's inline pattern between parentheses, or a group between
parentheses alone), then `after`; when `after`
starts with `?` the token has `Optional` true and `Repeat` false, with `*` both are true,
with `+` it has `Optional` false and `Repeat` true, and when `after` is empty or starts
with another character both are false.  In particular, for every non-empty identifier
`w`, the patterns `:w?`, `:w*`, `:w+` and `:w` parse to the one parameter token `w` with
these four pairs of flags. -/
theorem C11_modifier_sets_flags (s : GoString) (options : Option ParseOptions) :
    (∃ ts, Parse s options = some ts ∧
      ∀ t ∈ ts, t.String = false →
        ∃ before core after, s = before ++ core ++ after ∧
          ((∃ name, name ≠ [] ∧ (∀ b ∈ name, isWord b = true) ∧ t.Name = name ∧
              ((t.Pattern = bytes "[^" ++ escapeString t.Delimiter ++ bytes "]+?" ∧
                  core = 0x3A :: name) ∨
                ∃ capture, capture ≠ [] ∧ t.Pattern = escapeGroup capture ∧
                  core = 0x3A :: name ++ 0x28 :: capture ++ [0x29])) ∨
            ∃ group, group ≠ [] ∧ t.Pattern = escapeGroup group ∧
              core = 0x28 :: group ++ [0x29]) ∧
          (after.head? = some 0x3F → t.Optional = true ∧ t.Repeat = false) ∧
          (after.head? = some 0x2A → t.Optional = true ∧ t.Repeat = true) ∧
          (after.head? = some 0x2B → t.Optional = false ∧ t.Repeat = true) ∧
          (after.head? ≠ some 0x3F → after.head? ≠ some 0x2A → after.head? ≠ some 0x2B →
            t.Optional = false ∧ t.Repeat = false)) ∧
      ∀ w : GoString, w ≠ [] → (∀ b ∈ w, isWord b = true) →
        (Parse (bytes ":" ++ w ++ bytes "?") options).map
            (List.map fun t => (t.Name, t.String, t.Optional, t.Repeat)) =
          some [(w, false, true, false)] ∧
        (Parse (bytes ":" ++ w ++ bytes "*") options).map
            (List.map fun t => (t.Name, t.String, t.Optional, t.Repeat)) =
          some [(w, false, true, true)] ∧
        (Parse (bytes ":" ++ w ++ bytes "+") options).map
            (List.map fun t => (t.Name, t.String, t.Optional, t.Repeat)) =
          some [(w, false, false, true)] ∧
        (Parse (bytes ":" ++ w) options).map
            (List.map fun t => (t.Name, t.String, t.Optional, t.Repeat)) =
          some [(w, false, false, false)] := by
  have e1 : bytes "+" = [0x2B] := by decide
  have e2 : bytes "*" = [0x2A] := by decide
  have e3 : bytes "?" = [0x3F] := by decide
  have e4 : bytes ":" = [0x3A] := by decide
  constructor
  · obtain ⟨ts, hts, h⟩ := Parse_param_tokens s options
    refine ⟨ts, hts, ?_⟩
    intro t ht hs
    obtain ⟨res, hres, key, prev, he, _, rfl⟩ := h t ht hs
    obtain ⟨t2, core, after, ⟨before, hsuf⟩, ht2, hm, hmod, hshape⟩ :=
      findAll_param s res hres he
    obtain ⟨hO, hR⟩ := paramToken_flags (options.getD NewParseOptions) key prev [] res
    refine ⟨before, core, after, by rw [← hsuf, ht2, List.append_assoc], ?_, ?_⟩
    · rcases hshape with ⟨hg, hn, hw, hc⟩ | ⟨hn, hc, hg, hcore⟩
      · left
        refine ⟨res.name, hn, hw, by simp [paramToken, hn], ?_⟩
        rcases hc with ⟨hc, hcore⟩ | ⟨hc, hcore⟩
        · exact Or.inl ⟨by simp [paramToken, hc, hg], hcore⟩
        · refine Or.inr ⟨res.capture, hc, ?_, hcore⟩
          have hlen : 0 < res.capture.length := List.length_pos.mpr hc
          simp [paramToken, hc, hlen]
      · right
        refine ⟨res.group, hg, ?_, hcore⟩
        have hlen : 0 < res.group.length := List.length_pos.mpr hg
        simp [paramToken, hc, hg, hlen]
    · rw [hO, hR, hmod, e1, e2, e3]
      cases after with
      | nil => simp [modifierAt]
      | cons b rest =>
        simp only [List.head?_cons, Option.some.injEq, modifierAt]
        by_cases h1 : b = 0x3F
        · subst h1; simp
        by_cases h2 : b = 0x2A
        · subst h2; simp
        by_cases h3 : b = 0x2B
        · subst h3; simp
        simp [h1, h2, h3]
  · intro w hw0 hw
    have hne : ¬ (w = []) := hw0
    rw [e1, e2, e3, e4]
    refine ⟨?_, ?_, ?_, ?_⟩
    · rw [show [0x3A] ++ w ++ [0x3F] = 0x3A :: (w ++ [0x3F]) from by simp,
        Parse_single_param _ options _ (findAll_named_modifier w 0x3F hw0 hw (by simp)) rfl
          (by simp) rfl]
      simp [paramToken, hne, e1, e2, e3]
    · rw [show [0x3A] ++ w ++ [0x2A] = 0x3A :: (w ++ [0x2A]) from by simp,
        Parse_single_param _ options _ (findAll_named_modifier w 0x2A hw0 hw (by simp)) rfl
          (by simp) rfl]
      simp [paramToken, hne, e1, e2, e3]
    · rw [show [0x3A] ++ w ++ [0x2B] = 0x3A :: (w ++ [0x2B]) from by simp,
        Parse_single_param _ options _ (findAll_named_modifier w 0x2B hw0 hw (by simp)) rfl
          (by simp) rfl]
      simp [paramToken, hne, e1, e2, e3]
    · rw [show [0x3A] ++ w = 0x3A :: w from by simp,
        Parse_single_param _ options _ (findAll_named w hw0 hw) rfl rfl rfl]
      simp [paramToken, hne, e1, e2, e3]

/-! ### The assembled expression -/

/-- Every token that `Parse` returns has `Partial` false. -/
theorem Parse_Partial_false (s : GoString) (o : Option ParseOptions) :
    ∃ ts, Parse s o = some ts ∧ ∀ t ∈ ts, t.Partial = false := by
  obtain ⟨st, hPst, _, _, hp⟩ := Parse_induct
    (fun st => ∀ t ∈ st.tokens, t.Partial = false) s o
    (by
      intro st res st2 hP h1 h2 h3 h
      rcases parseStep_cases s _ st res st2 h1 h2 h3 h with ⟨_, e1, rfl⟩ | ⟨_, pp, _, rfl⟩
      · exact hP
      · intro t ht
        simp only [List.mem_append, List.mem_singleton] at ht
        rcases ht with ht | rfl
        · split_ifs at ht
          · rcases List.mem_append.mp ht with ht | ht
            · exact hP t ht
            · rw [List.mem_singleton] at ht
              subst ht
              rfl
          · exact hP t ht
        · simp [paramToken])
    (by intro t ht; simp at ht)
  refine ⟨_, hp, ?_⟩
  intro t ht
  split_ifs at ht
  · rcases List.mem_append.mp ht with ht | ht
    · exact hPst t ht
    · rw [List.mem_singleton] at ht
      subst ht
      rfl
  · exact hPst t ht

/-- One iteration of the token loop appends the contribution of the token. -/
theorem routeStep_route (o : ParseOptions) (n i : Nat) (t : Token) (st st2 : RouteState)
    (hp : t.Partial = false) (h : routeStep o n i t st = some st2) :
    st2.route = st.route ++ fragmentOf t := by
  by_cases hs : t.String = true
  · simp only [routeStep, hs, if_true] at h
    split_ifs at h
    · simp only [Option.map_eq_some'] at h
      obtain ⟨c, _, rfl⟩ := h
      simp [fragmentOf, hs]
    · simp only [Option.some.injEq] at h
      subst h
      simp [fragmentOf, hs]
  · simp only [Bool.not_eq_true] at hs
    simp only [routeStep, hs, Bool.false_eq_true, if_false, hp, Option.some.injEq] at h
    subst h
    by_cases ho : t.Optional = true
    · simp [fragmentOf, captureOf, hs, ho]
    · simp only [Bool.not_eq_true] at ho
      simp [fragmentOf, captureOf, hs, ho]

/-- The token loop appends the contributions of the tokens, in order. -/
theorem routeLoop_route (o : ParseOptions) (n : Nat) (ts : List Token) (i : Nat)
    (st st2 : RouteState) (hp : ∀ t ∈ ts, t.Partial = false)
    (h : routeLoop o n i ts st = some st2) :
    st2.route = st.route ++ ts.flatMap fragmentOf := by
  induction ts generalizing i st with
  | nil =>
    simp only [routeLoop, Option.some.injEq] at h
    subst h
    simp
  | cons t rest ih =>
    simp only [routeLoop] at h
    cases h1 : routeStep o n i t st with
    | none => simp [h1] at h
    | some st1 =>
      simp only [h1, Option.some_bind] at h
      rw [ih (i + 1) st1 (fun x hx => hp x (List.mem_cons_of_mem _ hx)) h,
        routeStep_route o n i t st st1 (hp t (List.mem_cons_self _ _)) h1]
      simp

/-- C16: for every pattern and all options, the assembled expression is `^` (when `Start`
is set), then the contribution of each token in order, then the end of the expression,
where a parameter token `t` contributes `escapeString(t.Prefix)`, `(`, `C`, `)` when it
is not optional and `(?:`, `escapeString(t.Prefix)`, `(`, `C`, `))?` when it is optional
(no token is partial), `C` being `t.Pattern` when `t.Repeat` is false and
`(?:PATTERN)(?:DELIMITER(?:PATTERN))*` when it is true; so `/:foo*` under the default
options assembles to `^(?:/((?:[^/]+?)(?:/(?:[^/]+?))*))?(?:/)?$`.  An expression is
assembled whenever the embedded pointer `options.ParseOptions` is not `nil`; when it is
`nil`, the call faults at line 179 and assembles nothing. -/
theorem C16_token_contributions (path : GoString) (options : Option Options) :
    ((options.getD NewOptions).ParseOptions = none →
        routeOf path (options.getD NewOptions) = none) ∧
      (∀ po, (options.getD NewOptions).ParseOptions = some po →
        ∃ tokens keys isEndDelimited,
          Parse path (options.getD NewOptions).ParseOptions = some tokens ∧
          (∀ t ∈ tokens, t.Partial = false) ∧
          routeOf path (options.getD NewOptions) = some
            ((if (options.getD NewOptions).Start then bytes "^" else []) ++
              tokens.flatMap fragmentOf ++
              routeEnd po (options.getD NewOptions) isEndDelimited,
              keys)) ∧
      (routeOf (bytes "/:foo*") NewOptions).map Prod.fst =
        some (bytes "^(?:/((?:[^/]+?)(?:/(?:[^/]+?))*))?(?:/)?$") := by
  refine ⟨routeOf_nil path _, ?_, by decide⟩
  intro po hpo
  obtain ⟨tokens, hparse, hpart⟩ := Parse_Partial_false path (some po)
  obtain ⟨tokens2, hparse2, hlit⟩ := Parse_literalsNonEmpty path (some po)
  rw [hparse] at hparse2
  obtain rfl := Option.some.inj hparse2
  obtain ⟨st, hloop, _⟩ := routeLoop_keys po tokens.length tokens 0
    ⟨if (options.getD NewOptions).Start then bytes "^" else [], [], tokens.length = 0⟩ hlit
  have hroute := routeLoop_route _ _ _ _ _ _ hpart hloop
  refine ⟨tokens, st.keys, st.isEndDelimited, by rw [hpo]; exact hparse, hpart, ?_⟩
  simp only [routeOf, hpo, hparse, Option.some_bind, hloop, Option.map_some', hroute]

/-! ### The end of the expression -/

theorem join_snoc (xs : List GoString) (a sep : GoString) (h : xs ≠ []) :
    join (xs ++ [a]) sep = join xs sep ++ sep ++ a := by
  induction xs with
  | nil => exact absurd rfl h
  | cons x rest ih =>
    cases rest with
    | nil => simp [join]
    | cons y r =>
      have := ih (by simp)
      simp only [List.cons_append] at this ⊢
      simp only [join, this, List.append_assoc]

/-- The variable `endsWith` is `$` when there are no terminators, and otherwise the
escaped terminators joined by `|`, followed by `|$`. -/
theorem endsWithOf_eq (o : Options) :
    endsWithOf o =
      if o.EndsWith = [] then bytes "$"
      else join (o.EndsWith.map escapeString) (bytes "|") ++ bytes "|$" := by
  by_cases h : o.EndsWith = []
  · simp [endsWithOf, h, join]
  · rw [if_neg h, endsWithOf, join_snoc _ _ _ (by simpa using h)]
    rw [List.append_assoc, show bytes "|" ++ bytes "$" = bytes "|$" from by decide]

theorem endsWithOf_eq_dollar (o : Options) : endsWithOf o = bytes "$" ↔ o.EndsWith = [] := by
  constructor
  · intro h
    by_contra hne
    rw [endsWithOf_eq, if_neg hne] at h
    have := congrArg List.length h
    rw [List.length_append, show (bytes "|$").length = 2 from by decide,
      show (bytes "$").length = 1 from by decide] at this
    omega
  · intro h
    rw [endsWithOf_eq, if_pos h]

/-- The end of the expression when `End` is set. -/
theorem routeEnd_of_End (po : ParseOptions) (o : Options) (b : Bool) (h : o.End = true) :
    routeEnd po o b =
      (if o.Strict then [] else bytes "(?:" ++ escapeString po.Delimiter ++ bytes ")?") ++
      (if o.EndsWith = [] then bytes "$"
        else bytes "(?=" ++ join (o.EndsWith.map escapeString) (bytes "|") ++ bytes "|$)") := by
  have e : bytes "|$" ++ bytes ")" = bytes "|$)" := by decide
  simp only [routeEnd, h, if_true]
  by_cases hs : o.Strict = true
  · by_cases he : o.EndsWith = []
    · simp [hs, (endsWithOf_eq_dollar o).mpr he, he]
    · have hne : ¬ endsWithOf o = bytes "$" := fun hx => he ((endsWithOf_eq_dollar o).mp hx)
      simp only [hs, he, hne, if_false]
      rw [endsWithOf_eq, if_neg he]
      simp [← e]
  · simp only [Bool.not_eq_true] at hs
    by_cases he : o.EndsWith = []
    · simp [hs, (endsWithOf_eq_dollar o).mpr he, he]
    · have hne : ¬ endsWithOf o = bytes "$" := fun hx => he ((endsWithOf_eq_dollar o).mp hx)
      simp only [hs, he, hne, if_false]
      rw [endsWithOf_eq, if_neg he]
      simp [← e]

/-- C17: for every pattern, when `End` is set the assembled expression is the expression
built from the tokens, which depends on neither `Strict` nor `EndsWith`, followed by
`(?:`, `escapeString(Delimiter)`, `)?` exactly when `Strict` is false, followed by the
literal `$` when `EndsWith` is empty and otherwise by the lookahead `(?=`, the escaped
terminators joined by `|`, `|$)`; it ends with `$` exactly when `EndsWith` is empty.  An
expression is assembled whenever the embedded pointer `options.ParseOptions` is not
`nil`; when it is `nil`, the call faults at line 179 and assembles nothing. -/
theorem C17_end_of_expression (path : GoString) (options : Options) :
    (options.ParseOptions = none →
        ∀ (strict : Bool) (ends : List GoString),
          routeOf path { options with End := true, Strict := strict, EndsWith := ends } =
            none) ∧
      ∀ po, options.ParseOptions = some po →
        ∃ body keys, ∀ (strict : Bool) (ends : List GoString),
          ∃ route,
            routeOf path { options with End := true, Strict := strict, EndsWith := ends } =
              some (route, keys) ∧
            route = body ++
              (if strict then []
                else bytes "(?:" ++ escapeString po.Delimiter ++ bytes ")?") ++
              (if ends = [] then bytes "$"
                else bytes "(?=" ++ join (ends.map escapeString) (bytes "|") ++ bytes "|$)") ∧
            (bytes "$" <:+ route ↔ ends = []) := by
  constructor
  · intro h strict ends
    exact routeOf_nil path _ h
  intro po hpo
  obtain ⟨tokens, hparse, hlit⟩ := Parse_literalsNonEmpty path (some po)
  obtain ⟨st, hloop, _⟩ := routeLoop_keys po tokens.length tokens 0
    ⟨if options.Start then bytes "^" else [], [], tokens.length = 0⟩ hlit
  refine ⟨st.route, st.keys, ?_⟩
  intro strict ends
  have hend := routeEnd_of_End po
    { options with End := true, Strict := strict, EndsWith := ends } st.isEndDelimited rfl
  simp only [hpo] at hend
  refine ⟨_, ?_, rfl, ?_⟩
  · simp only [routeOf, hpo, hparse, Option.some_bind, hloop, Option.map_some', hend,
      List.append_assoc]
  · have e1 : bytes "$" = [0x24] := by decide
    have e2 : bytes "|$)" = [0x7C, 0x24] ++ [0x29] := by decide
    constructor
    · intro hsuf
      by_contra hne
      rw [if_neg hne, e1, e2] at hsuf
      obtain ⟨u, hu⟩ := hsuf
      have h1 := congrArg List.getLast? hu
      simp only [← List.append_assoc] at h1
      rw [List.getLast?_concat, List.getLast?_concat] at h1
      simp at h1
    · intro he
      rw [if_pos he]
      exact List.suffix_append _ _

/-! ### Lookahead groups -/

theorem routeLoop_snoc (o : ParseOptions) (n : Nat) (ts : List Token) (t : Token) (i : Nat)
    (st : RouteState) :
    routeLoop o n i (ts ++ [t]) st =
      (routeLoop o n i ts st).bind (routeStep o n (i + ts.length) t) := by
  induction ts generalizing i st with
  | nil =>
    simp only [List.nil_append, routeLoop, List.length_nil, Nat.add_zero, Option.some_bind]
    cases routeStep o n i t st <;> rfl
  | cons x rest ih =>
    simp only [List.cons_append, routeLoop, List.length_cons]
    cases routeStep o n i x st with
    | none => rfl
    | some st1 =>
      simp only [Option.some_bind]
      rw [show i + (rest.length + 1) = i + 1 + rest.length from by omega]
      exact ih (i + 1) st1

/-- Before the last token the variable `isEndDelimited` stays false. -/
theorem routeLoop_not_last (o : ParseOptions) (n : Nat) (ts : List Token) (i : Nat)
    (st st2 : RouteState) (h : routeLoop o n i ts st = some st2)
    (h0 : st.isEndDelimited = false) (hn : i + ts.length < n) :
    st2.isEndDelimited = false := by
  induction ts generalizing i st with
  | nil =>
    simp only [routeLoop, Option.some.injEq] at h
    subst h
    exact h0
  | cons t rest ih =>
    simp only [routeLoop] at h
    simp only [List.length_cons] at hn
    cases h1 : routeStep o n i t st with
    | none => simp [h1] at h
    | some st1 =>
      simp only [h1, Option.some_bind] at h
      refine ih (i + 1) st1 h ?_ (by omega)
      by_cases hs : t.String = true
      · have hi : ¬ ((i : Int) = (n : Int) - 1) := by omega
        simp only [routeStep, hs, if_true, if_neg hi, Option.some.injEq] at h1
        subst h1
        rfl
      · simp only [Bool.not_eq_true] at hs
        simp only [routeStep, hs, Bool.false_eq_true, if_false, Option.some.injEq] at h1
        subst h1
        exact h0

/-- After the token loop over a non-empty token list the variable `isEndDelimited` tells
whether the list ends in a literal delimiter-set character. -/
theorem routeLoop_isEndDelimited (o : ParseOptions) (tokens : List Token) (st st2 : RouteState)
    (hne : tokens ≠ []) (h : routeLoop o tokens.length 0 tokens st = some st2)
    (h0 : st.isEndDelimited = false) :
    st2.isEndDelimited = endsInLiteralDelimiter o.Delimiters tokens := by
  rcases List.eq_nil_or_concat tokens with rfl | ⟨ts, t, rfl⟩
  · exact absurd rfl hne
  · rw [List.concat_eq_append] at h ⊢
    have hlen : (ts ++ [t]).length = ts.length + 1 := by simp
    rw [routeLoop_snoc, hlen] at h
    cases h1 : routeLoop o (ts.length + 1) 0 ts st with
    | none => simp [h1] at h
    | some st1 =>
      simp only [h1, Option.some_bind, Nat.zero_add] at h
      have hf := routeLoop_not_last o _ ts 0 st st1 h1 h0 (by simp)
      simp only [endsInLiteralDelimiter, List.getLast?_concat]
      by_cases hs : t.String = true
      · have hi : ((ts.length : Nat) : Int) = ((ts.length + 1 : Nat) : Int) - 1 := by
          simp
        simp only [routeStep, hs, if_true, if_pos hi, Option.map_eq_some'] at h
        obtain ⟨c, hc, rfl⟩ := h
        have hlast : t.Name.getLast? = some c := by
          rw [List.getLast?_eq_getElem?]
          simpa [byteAt] using hc
        rw [hlast]
        simp [hs]
      · simp only [Bool.not_eq_true] at hs
        simp only [routeStep, hs, Bool.false_eq_true, if_false, Option.some.injEq] at h
        subst h
        simp [hf, hs]

/-- A non-empty pattern gives at least one token. -/
theorem Parse_ne_nil (s : GoString) (o : Option ParseOptions) (hs : s ≠ []) :
    ∃ ts, Parse s o = some ts ∧ ts ≠ [] := by
  obtain ⟨st, hP, hn, _, hp⟩ := Parse_induct
    (fun st => 0 < st.index → st.tokens ≠ [] ∨ st.path ≠ []) s o
    (by
      intro st res st2 hP h1 h2 h3 h
      rcases parseStep_cases s _ st res st2 h1 h2 h3 h with ⟨_, e1, rfl⟩ | ⟨_, pp, _, rfl⟩
      · intro _
        right
        simp [encodeRune_ne_nil]
      · intro _
        left
        simp)
    (by intro h; simp at h)
  refine ⟨_, hp, ?_⟩
  split_ifs with hc
  · simp
  · have hlen : 0 < s.length := List.length_pos.mpr hs
    have h1 : ¬ (st.path.length > 0) := fun h => hc (Or.inl h)
    have h2 : ¬ (st.index < s.length) := fun h => hc (Or.inr h)
    have hpath : st.path = [] := List.length_eq_zero.mp (by omega)
    rcases hP (by omega) with h | h
    · exact h
    · exact absurd hpath h

theorem lookahead_infix (a b : GoString) {r : GoString} (h : r = a ++ bytes "(?=" ++ b) :
    bytes "(?=" <:+: r :=
  ⟨a, b, h.symm⟩

/-! ### The last byte of the pattern -/

/-- Every match that the scan reports is the match of `PATH_REGEXP` at the head of the
string cut at the offset of the match. -/
theorem findAllFrom_mem_drop (fuel off : Nat) (t : GoString) (r : Submatch)
    (hr : r ∈ findAllFrom fuel off t) :
    ∃ k, r.offset = off + k ∧ matchHere r.offset (t.drop k) = some r := by
  induction fuel generalizing off t with
  | zero => simp [findAllFrom] at hr
  | succ n ih =>
    cases t with
    | nil => simp [findAllFrom] at hr
    | cons b rest =>
      simp only [findAllFrom] at hr
      split at hr
      · rename_i res hres
        rcases List.mem_cons.mp hr with h | h
        · subst h
          obtain ⟨ho, _⟩ := matchHere_spec hres
          exact ⟨0, by rw [ho]; rfl, by rw [ho]; exact hres⟩
        · obtain ⟨k, hk, hm⟩ := ih _ _ h
          refine ⟨res.m.length + k, by omega, ?_⟩
          rw [List.drop_drop] at hm
          exact hm
      · obtain ⟨k, hk, hm⟩ := ih _ _ hr
        refine ⟨(decodeRune (b :: rest)).2 + k, by omega, ?_⟩
        rw [List.drop_drop] at hm
        exact hm

theorem findAll_mem_drop (s : GoString) (r : Submatch) (hr : r ∈ findAll s) :
    matchHere r.offset (s.drop r.offset) = some r := by
  obtain ⟨k, hk, hm⟩ := findAllFrom_mem_drop _ _ _ r hr
  rw [Nat.zero_add] at hk
  rw [hk]
  rw [hk] at hm
  exact hm

/-- The shape of an escape match: a backslash and the bytes of the rune that follows. -/
theorem matchHere_escape {off : Nat} {t : GoString} {r : Submatch}
    (h : matchHere off t = some r) (he : r.escaped ≠ []) :
    ∃ e1 rest, t = 0x5C :: e1 :: rest ∧
      r.m = 0x5C :: (e1 :: rest).take (decodeRune (e1 :: rest)).2 ∧ r.escaped = r.m := by
  cases t with
  | nil => simp [matchHere] at h
  | cons b rest =>
    by_cases h1 : b = 0x5C
    · cases rest with
      | nil => simp [matchHere, h1] at h
      | cons c r2 =>
        by_cases h2 : (decodeRune (c :: r2)).1 = 0x0A
        · simp [matchHere, h1, h2] at h
        · simp only [matchHere, if_pos h1, if_neg h2, Option.some.injEq] at h
          subst h
          exact ⟨c, r2, by rw [h1], by rw [h1], rfl⟩
    · exfalso
      apply he
      by_cases h2 : b = 0x3A
      · simp only [matchHere, if_neg h1, if_pos h2] at h
        split_ifs at h
        split at h <;> simp only [Option.some.injEq] at h <;> subst h <;> rfl
      · by_cases h3 : b = 0x28
        · simp only [matchHere, if_neg h1, if_neg h2, if_pos h3] at h
          split at h
          · simp only [Option.some.injEq] at h
            subst h
            rfl
          · simp at h
        · simp [matchHere, h1, h2, h3] at h

/-- When the last byte of the pattern is an ASCII character that is not in the delimiter
set, the token list of `Parse` does not end in a literal delimiter-set character: its
last token is a parameter token, or a literal whose text ends in that same byte. -/
theorem Parse_last_byte (s : GoString) (o : Option ParseOptions) (delimiters : GoString)
    (c : Nat) (hlast : s.getLast? = some c) (hc : c < 0x80)
    (hd : ¬ IndexRune delimiters c > -1) :
    ∃ ts, Parse s o = some ts ∧ endsInLiteralDelimiter delimiters ts = false := by
  have hsne : s ≠ [] := by
    intro h; rw [h] at hlast; simp at hlast
  have hslen : 0 < s.length := List.length_pos.mpr hsne
  have hget : s.get? (s.length - 1) = some c := by
    rw [← hlast, List.getLast?_eq_getElem?, List.get?_eq_getElem?]
  obtain ⟨st, hst, ⟨hQ, hR⟩, hn⟩ := parseLoop_induct_mem
    (fun st =>
      (st.path ≠ [] → 0 < st.index ∧
        ∀ x, s.get? (st.index - 1) = some x → x < 0x80 → st.path.getLast? = some x) ∧
      (∀ t, st.tokens.getLast? = some t → t.String = false))
    s (o.getD NewParseOptions) (findAll s)
    (by
      intro st res st2 hmem hP h1 h2 h3 h
      by_cases he : res.escaped = []
      · rcases parseStep_cases s _ st res st2 h1 h2 h3 h with ⟨hne, _⟩ | ⟨_, pp, _, rfl⟩
        · exact absurd he hne
        · refine ⟨fun hp => absurd rfl hp, ?_⟩
          intro t ht
          rw [List.getLast?_concat] at ht
          obtain rfl := Option.some.inj ht
          rfl
      · obtain ⟨e1, rest, hdrop, hm, hesc⟩ := matchHere_escape (findAll_mem_drop s res hmem) he
        have hw1 := decodeRune_width_pos e1 rest
        have hwle := decodeRune_width_le e1 rest
        have hmlen : res.m.length = 1 + (decodeRune (e1 :: rest)).2 := by
          rw [hm]
          simp only [List.length_cons, List.length_take]
          omega
        have hesc2 : ∃ es, res.escaped = 0x5C :: e1 :: es := by
          rw [hesc, hm]
          obtain ⟨w, hw⟩ : ∃ w, (decodeRune (e1 :: rest)).2 = w + 1 :=
            ⟨(decodeRune (e1 :: rest)).2 - 1, by omega⟩
          rw [hw]
          exact ⟨_, rfl⟩
        obtain ⟨es, hes⟩ := hesc2
        rw [parseStep_escaped s _ st res 0x5C e1 es h1 (by omega) hes] at h
        obtain rfl := Option.some.inj h
        refine ⟨fun _ => ⟨by simp only; omega, ?_⟩, hP.2⟩
        intro x hx hx80
        simp only at hx
        have hidx : res.offset + res.m.length - 1 = res.offset + (decodeRune (e1 :: rest)).2 := by
          omega
        rw [hidx, List.get?_eq_getElem?, ← List.getElem?_drop, hdrop] at hx
        rcases decodeRune_cases e1 rest with hw | ⟨hw, _, s1, t, rfl, hs1⟩ |
          ⟨hw, _, s1, s2, t, rfl, _, hs2⟩ | ⟨hw, _, s1, s2, s3, t, rfl, _, _, hs3⟩
        · rw [hw] at hx
          simp only [List.getElem?_cons_succ, List.getElem?_cons_zero, Option.some.injEq] at hx
          subst hx
          simp [encodeRune, hx80]
        · rw [hw] at hx
          simp only [List.getElem?_cons_succ, List.getElem?_cons_zero, Option.some.injEq] at hx
          omega
        · rw [hw] at hx
          simp only [List.getElem?_cons_succ, List.getElem?_cons_zero, Option.some.injEq] at hx
          omega
        · rw [hw] at hx
          simp only [List.getElem?_cons_succ, List.getElem?_cons_zero, Option.some.injEq] at hx
          omega)
    (findAll s) (fun _ h => h) ⟨[], 0, 0, [], false⟩ 0 (findAll_wellPlaced s) (Nat.le_refl _)
    (Nat.zero_le _) ⟨fun h => absurd rfl h, by intro t ht; simp at ht⟩
  refine ⟨_, Parse_eq_of_loop s o st hst hn, ?_⟩
  have hdc : decide (IndexRune delimiters c > -1) = false := by simpa using hd
  split_ifs with hcond
  · simp only [endsInLiteralDelimiter, List.getLast?_concat, Bool.true_and]
    have hname : (st.path ++ List.drop st.index s).getLast? = some c := by
      by_cases hi : st.index < s.length
      · have hne : List.drop st.index s ≠ [] := by
          intro h0
          have := congrArg List.length h0
          simp only [List.length_drop, List.length_nil] at this
          omega
        rw [List.getLast?_append_of_ne_nil _ hne]
        rw [List.getLast?_eq_getElem?, List.getElem?_drop, List.length_drop]
        rw [List.get?_eq_getElem?] at hget
        rw [← hget]
        congr 1
        omega
      · have hp : st.path.length > 0 := by
          rcases hcond with h | h
          · exact h
          · exact absurd h hi
        have hpne : st.path ≠ [] := List.length_pos.mp hp
        have hieq : st.index = s.length := by omega
        rw [List.drop_eq_nil_of_le (by omega), List.append_nil]
        obtain ⟨_, hq⟩ := hQ hpne
        rw [hieq] at hq
        exact hq c hget hc
    rw [hname]
    exact hdc
  · cases hl : st.tokens.getLast? with
    | none => simp [endsInLiteralDelimiter, hl]
    | some t => simp [endsInLiteralDelimiter, hl, hR t hl]

/-- Where the assembled expression holds a lookahead group `(?=`, for every pattern and
all options with an embedded pointer that is not `nil`: whenever `End` is false and
`Strict` is false; whenever `End` is false, the pattern is not empty and the test of
line 197 fails on the last token (which it does in particular when the last byte of the
pattern is an ASCII character outside the delimiter set); and whenever `End` is true and
`EndsWith` is not empty. -/
theorem routeOf_lookahead (path : GoString) (o : Options) (po : ParseOptions)
    (hpo : o.ParseOptions = some po) :
    ∃ tokens route keys,
      Parse path (some po) = some tokens ∧
      routeOf path o = some (route, keys) ∧
      (o.End = false → o.Strict = false → bytes "(?=" <:+: route) ∧
      (o.End = false → path ≠ [] →
        endsInLiteralDelimiter po.Delimiters tokens = false → bytes "(?=" <:+: route) ∧
      (o.End = false →
        (∃ c, path.getLast? = some c ∧ c < 0x80 ∧ ¬ IndexRune po.Delimiters c > -1) →
        bytes "(?=" <:+: route) ∧
      (o.End = true → o.EndsWith ≠ [] → bytes "(?=" <:+: route) := by
  obtain ⟨tokens, hparse, hlit⟩ := Parse_literalsNonEmpty path (some po)
  obtain ⟨st, hloop, _⟩ := routeLoop_keys po tokens.length tokens 0
    ⟨if o.Start then bytes "^" else [], [], tokens.length = 0⟩ hlit
  have hb : o.End = false → path ≠ [] →
      endsInLiteralDelimiter po.Delimiters tokens = false →
      bytes "(?=" <:+: st.route ++ routeEnd po o st.isEndDelimited := by
    intro hE hp hd
    obtain ⟨ts2, hparse2, hne⟩ := Parse_ne_nil path (some po) hp
    rw [hparse] at hparse2
    obtain rfl := Option.some.inj hparse2
    have h0 : decide (tokens.length = 0) = false := by
      simp only [decide_eq_false_iff_not]
      exact fun h => hne (List.length_eq_zero.mp h)
    have hied := routeLoop_isEndDelimited po tokens _ st hne hloop h0
    rw [hd] at hied
    refine lookahead_infix (st.route ++
        (if !o.Strict then
          bytes "(?:" ++ escapeString po.Delimiter ++ bytes "(?=" ++ endsWithOf o ++
            bytes "))?"
        else []))
      (escapeString po.Delimiter ++ bytes "|" ++ endsWithOf o ++ bytes ")") ?_
    simp only [routeEnd, hE, hied, Bool.false_eq_true, if_false, Bool.not_false, if_true,
      List.append_assoc]
  refine ⟨tokens, st.route ++ routeEnd po o st.isEndDelimited, st.keys, hparse, ?_, ?_, hb,
    ?_, ?_⟩
  · simp only [routeOf, hpo, hparse, Option.some_bind, hloop, Option.map_some']
  · intro hE hS
    refine lookahead_infix (st.route ++ bytes "(?:" ++ escapeString po.Delimiter)
      (endsWithOf o ++ bytes "))?" ++
        (if !st.isEndDelimited then
          bytes "(?=" ++ escapeString po.Delimiter ++ bytes "|" ++ endsWithOf o ++
            bytes ")"
        else [])) ?_
    simp only [routeEnd, hE, hS, Bool.false_eq_true, if_false, Bool.not_false, if_true,
      List.append_assoc]
  · intro hE hex
    obtain ⟨c, hlast, hc, hdl⟩ := hex
    have hp : path ≠ [] := by
      intro h; rw [h] at hlast; simp at hlast
    obtain ⟨ts2, hparse2, hends⟩ := Parse_last_byte path (some po) po.Delimiters c hlast hc hdl
    rw [hparse] at hparse2
    obtain rfl := Option.some.inj hparse2
    exact hb hE hp hends
  · intro hE he
    have hne : ¬ endsWithOf o = bytes "$" := fun hx => he ((endsWithOf_eq_dollar o).mp hx)
    refine lookahead_infix (st.route ++
        (if !o.Strict then bytes "(?:" ++ escapeString po.Delimiter ++ bytes ")?"
        else []))
      (endsWithOf o ++ bytes ")") ?_
    simp only [routeEnd, hE, hne, if_false, if_true, List.append_assoc]

/-- C20 fails on the pattern `/é` with the delimiter set `©`, `Strict` set and `End` not
set.  The pattern is not empty and ends in the character `é` (U+00E9), which is not in
the delimiter set, whose one character is `©` (U+00A9); yet line 197 takes the last byte
of the literal, `0xA9`, for a character, finds it in the set, and the assembled
expression `^/é` holds no lookahead group. -/
theorem C20_last_byte_taken_for_character :
    routeOf (bytes "/é")
        { ParseOptions := some { Delimiter := bytes "/", Delimiters := bytes "©" },
          Strict := true, Start := true, End := false, EndsWith := [] } =
        some (bytes "^/é", []) ∧
      ¬ bytes "(?=" <:+: bytes "^/é" ∧
      Parse (bytes "/é") (some { Delimiter := bytes "/", Delimiters := bytes "©" }) =
        some [{ Name := bytes "/é", String := true }] ∧
      bytes "/é" = [0x2F, 0xC3, 0xA9] ∧
      decodeRune [0xC3, 0xA9] = (0xE9, 2) ∧
      bytes "©" = [0xC2, 0xA9] ∧
      decodeRune [0xC2, 0xA9] = (0xA9, 2) ∧
      IndexRune (bytes "©") 0xE9 = -1 ∧
      IndexRune (bytes "©") 0xA9 = 0 := by
  decide

/-! ### Patterns whose matches are all escapes -/

/-- The encoding of a character holds a backslash byte only when the character is the
backslash. -/
theorem encodeRune_count_backslash (r : Nat) :
    (encodeRune r).count 0x5C = [r].count 0x5C := by
  by_cases h : r < 0x80
  · simp [encodeRune, h]
  · have h1 : ∀ b ∈ encodeRune r, 0x80 ≤ b := by
      intro b hb
      unfold encodeRune at hb
      split_ifs at hb <;> simp at hb <;> omega
    have h2 : (0x5C : Nat) ∉ encodeRune r := fun hm => by
      have := h1 _ hm
      omega
    have h3 : ¬ r = 0x5C := by omega
    rw [List.count_eq_zero.mpr h2]
    simp [List.count_cons, h3]

/-- The bytes of the first rune of a string hold as many backslash bytes as the
character that `string(escaped[1])` makes of the first byte. -/
theorem rune_count_backslash (e1 : Nat) (rest : GoString) :
    ((e1 :: rest).take (decodeRune (e1 :: rest)).2).count 0x5C =
      (encodeRune e1).count 0x5C := by
  rw [encodeRune_count_backslash]
  rcases decodeRune_cases e1 rest with hw | ⟨hw, h0, s1, t, rfl, h1⟩ |
    ⟨hw, h0, s1, s2, t, rfl, h1, h2⟩ | ⟨hw, h0, s1, s2, s3, t, rfl, h1, h2, h3⟩
  · rw [hw]; simp
  · rw [hw]
    have a0 : ¬ e1 = 0x5C := by omega
    have a1 : ¬ s1 = 0x5C := by omega
    simp [List.count_cons, a0, a1]
  · rw [hw]
    have a0 : ¬ e1 = 0x5C := by omega
    have a1 : ¬ s1 = 0x5C := by omega
    have a2 : ¬ s2 = 0x5C := by omega
    simp [List.count_cons, a0, a1, a2]
  · rw [hw]
    have a0 : ¬ e1 = 0x5C := by omega
    have a1 : ¬ s1 = 0x5C := by omega
    have a2 : ¬ s2 = 0x5C := by omega
    have a3 : ¬ s3 = 0x5C := by omega
    simp [List.count_cons, a0, a1, a2, a3]

/-- The loop of `Parse` over escape matches pushes no token, and every match takes one
backslash out of the text: the backslashes of the buffered literal and the number of
matches add up to the backslashes of the part of the pattern that has been read. -/
theorem parseLoop_escapes (s : GoString) (o : ParseOptions) (ms : List Submatch)
    (st : ParseState) (lo : Nat) (hw : wellPlaced s.length lo ms = true) (hi : st.index ≤ lo)
    (hn : st.index ≤ s.length)
    (hm : ∀ r ∈ ms, r.escaped ≠ [] ∧ matchHere r.offset (s.drop r.offset) = some r) :
    ∃ st2, parseLoop s o ms st = some st2 ∧ st2.tokens = st.tokens ∧
      st2.index ≤ s.length ∧
      st2.path.count 0x5C + ms.length + (s.take st.index).count 0x5C =
        st.path.count 0x5C + (s.take st2.index).count 0x5C := by
  induction ms generalizing st lo with
  | nil => exact ⟨st, rfl, rfl, hn, by simp⟩
  | cons r rs ih =>
    simp only [wellPlaced, Bool.and_eq_true, decide_eq_true_eq, Bool.or_eq_true] at hw
    obtain ⟨⟨⟨hlo, hhi⟩, _⟩, hrest⟩ := hw
    obtain ⟨hne, hmatch⟩ := hm r (List.mem_cons_self _ _)
    obtain ⟨e1, rest, hdrop, hrm, hesc⟩ := matchHere_escape hmatch hne
    have hw1 := decodeRune_width_pos e1 rest
    have hwle := decodeRune_width_le e1 rest
    have hmlen : r.m.length = 1 + (decodeRune (e1 :: rest)).2 := by
      rw [hrm]
      simp only [List.length_cons, List.length_take]
      omega
    obtain ⟨es, hes⟩ : ∃ es, r.escaped = 0x5C :: e1 :: es := by
      rw [hesc, hrm]
      obtain ⟨w, hw⟩ : ∃ w, (decodeRune (e1 :: rest)).2 = w + 1 :=
        ⟨(decodeRune (e1 :: rest)).2 - 1, by omega⟩
      rw [hw]
      exact ⟨_, rfl⟩
    have hstep := parseStep_escaped s o st r 0x5C e1 es (by omega) (by omega) hes
    obtain ⟨st2, hst2, htok, hn2, hcount⟩ := ih
      { st with
        index := r.offset + r.m.length
        path := st.path ++ (s.take r.offset).drop st.index ++ encodeRune e1
        pathEscaped := true }
      (r.offset + r.m.length) hrest (Nat.le_refl _) hhi
      (fun x hx => hm x (List.mem_cons_of_mem _ hx))
    refine ⟨st2, by simp only [parseLoop, hstep, Option.some_bind]; exact hst2, htok, hn2, ?_⟩
    simp only [List.count_append] at hcount
    have h1 : s.take (r.offset + r.m.length) = s.take r.offset ++ r.m := by
      rw [List.take_add, hdrop, hmlen, hrm]
      congr 1
      rw [Nat.add_comm, List.take_succ_cons]
    have h2 : s.take r.offset = s.take st.index ++ (s.take r.offset).drop st.index := by
      have h3 : (s.take r.offset).take st.index = s.take st.index := by
        rw [List.take_take, Nat.min_eq_left (by omega)]
      rw [← h3, List.take_append_drop]
    have h4 : r.m.count 0x5C = 1 + (encodeRune e1).count 0x5C := by
      rw [hrm, List.count_cons_self, rune_count_backslash]
      omega
    have h5 : (s.take (r.offset + r.m.length)).count 0x5C =
        (s.take st.index).count 0x5C + ((s.take r.offset).drop st.index).count 0x5C +
          (1 + (encodeRune e1).count 0x5C) := by
      rw [h1, List.count_append, h4]
      conv_lhs => rw [h2]
      rw [List.count_append]
    simp only [List.length_cons]
    omega

/-- On a pattern whose matches are all escapes, `Parse` returns the buffered text as one
literal token, or no token when that text is empty, and the text has one backslash less
than the pattern for every match. -/
theorem Parse_of_escapes (s : GoString) (o : Option ParseOptions)
    (h : ∀ r ∈ findAll s, r.escaped ≠ []) :
    ∃ name, Parse s o = some (if name = [] then [] else [{ Name := name, String := true }]) ∧
      name.count 0x5C + (findAll s).length = s.count 0x5C := by
  obtain ⟨st, hst, htok, hn, hcount⟩ := parseLoop_escapes s (o.getD NewParseOptions)
    (findAll s) ⟨[], 0, 0, [], false⟩ 0 (findAll_wellPlaced s) (Nat.le_refl _) (Nat.zero_le _)
    (fun r hr => ⟨h r hr, findAll_mem_drop s r hr⟩)
  simp only [List.take_zero, List.count_nil, Nat.add_zero, Nat.zero_add] at hcount htok
  refine ⟨st.path ++ s.drop st.index, ?_, ?_⟩
  · rw [Parse_eq_of_loop s o st hst hn, htok]
    by_cases hc : st.path.length > 0 ∨ st.index < s.length
    · have hne : ¬ (st.path ++ s.drop st.index = []) := by
        intro h0
        have := congrArg List.length h0
        simp only [List.length_append, List.length_drop, List.length_nil] at this
        omega
      rw [if_pos hc, if_neg hne]
      rfl
    · have he : st.path ++ s.drop st.index = [] := by
        have h1 : st.path = [] := List.length_eq_zero.mp (by omega)
        rw [h1, List.nil_append, List.drop_eq_nil_of_le (by omega)]
      rw [if_neg hc, if_pos he]
  · rw [List.count_append]
    have : s.count 0x5C = (s.take st.index).count 0x5C + (s.drop st.index).count 0x5C := by
      rw [← List.count_append, List.take_append_drop]
    omega

theorem literalText_single (name : GoString) :
    literalText (if name = [] then [] else [{ Name := name, String := true }]) = name := by
  by_cases h : name = []
  · simp [h, literalText]
  · simp [h, literalText]

/-- C8, as amended: for every pattern whose `Parse` result consists only of literal
tokens, parsing the concatenation of those tokens' texts yields the same token list again
exactly when that concatenation holds no match of `PATH_REGEXP`, that is no escape
sequence and no parameter; it does so in particular whenever the concatenation has no
backslash, colon or opening parenthesis. -/
theorem C8_reparse_all_literal (s : GoString) (options : Option ParseOptions)
    (ts : List Token) (hp : Parse s options = some ts) (hall : ∀ t ∈ ts, t.String = true) :
    (Parse (literalText ts) options = some ts ↔ findAll (literalText ts) = []) ∧
      ((∀ b ∈ literalText ts, b ≠ 0x5C ∧ b ≠ 0x3A ∧ b ≠ 0x28) →
        Parse (literalText ts) options = some ts) := by
  have hback : findAll (literalText ts) = [] → Parse (literalText ts) options = some ts := by
    intro hnil
    obtain ⟨name, hname, _⟩ := Parse_of_escapes s options
      (findAll_escaped_of_all_literal s options ts hp hall)
    rw [hp] at hname
    have hts := Option.some.inj hname
    rw [Parse_of_findAll_nil _ options hnil]
    have htext : literalText ts = name := by rw [hts]; exact literalText_single name
    rw [htext, ← hts]
  refine ⟨⟨?_, hback⟩, ?_⟩
  · intro h
    obtain ⟨name, hname, hcount⟩ := Parse_of_escapes (literalText ts) options
      (findAll_escaped_of_all_literal _ options ts h hall)
    rw [h] at hname
    have hts := Option.some.inj hname
    have htext : literalText ts = name := by
      conv_lhs => rw [hts]
      exact literalText_single name
    rw [← htext] at hcount
    exact List.length_eq_zero.mp (by omega)
  · intro hplain
    apply hback
    apply findAll_plain
    intro b hb
    obtain ⟨h1, h2, h3⟩ := hplain b hb
    simp [isPlain, h1, h2, h3]

/-- C8, an instance of the amended claim: the pattern `/a\.b`, whose one literal token
has the text `/a.b`, which parses to the same token. -/
theorem C8_reparse_all_literal_witness :
    (Parse (bytes "/a\\.b") none = some [{ Name := bytes "/a.b", String := true }] ∧
      ∀ t ∈ [({ Name := bytes "/a.b", String := true } : Token)], t.String = true) ∧
    (Parse (literalText [{ Name := bytes "/a.b", String := true }]) none =
        some [{ Name := bytes "/a.b", String := true }] ↔
      findAll (literalText [{ Name := bytes "/a.b", String := true }]) = []) ∧
    ((∀ b ∈ literalText [{ Name := bytes "/a.b", String := true }],
        b ≠ 0x5C ∧ b ≠ 0x3A ∧ b ≠ 0x28) →
      Parse (literalText [{ Name := bytes "/a.b", String := true }]) none =
        some [{ Name := bytes "/a.b", String := true }]) :=
  ⟨⟨by decide, by decide⟩,
    C8_reparse_all_literal (bytes "/a\\.b") none [{ Name := bytes "/a.b", String := true }]
      (by decide) (by decide)⟩

/-- A pattern with an escape whose reconstructed text parses to the same tokens, `\a`
with the text `a`, and one whose text does not, `\\a` with the text `\a`, which is an
escape sequence. -/
theorem Parse_reparse_examples :
    Parse (bytes "\\a") none = some [{ Name := bytes "a", String := true }] ∧
      Parse (bytes "a") none = some [{ Name := bytes "a", String := true }] ∧
      Parse (bytes "\\\\a") none = some [{ Name := bytes "\\a", String := true }] ∧
      Parse (bytes "\\a") none ≠ some [{ Name := bytes "\\a", String := true }] := by
  decide

/-! ### Further evaluations of the grammar -/

/-- A backslash followed by a newline is not an item of an inline pattern, since `.`
does not match a newline: the grammar does not accept it, and the parentheses that hold
it stay literal text after the parameter. -/
theorem isInline_backslash_newline :
    isInline (bytes "\\\n") = false ∧
      Parse (bytes ":id(\\\n)") none = some
        [{ Name := bytes "id", Delimiter := bytes "/", Pattern := bytes "[^/]+?",
           String := false },
         { Name := bytes "(\\\n)", String := true }] := by
  decide

/-- An inline pattern with an escaped parenthesis is accepted by the grammar, and its
token has the pattern with a second backslash before the parenthesis. -/
theorem Parse_inline_escaped_parenthesis :
    isInline (bytes "\\(a\\)") = true ∧
      Parse (bytes ":id(\\(a\\))") none = some
        [{ Name := bytes "id", Delimiter := bytes "/", Pattern := bytes "\\\\(a\\\\)",
           String := false }] := by
  decide

end Pathtoregexp
